import Mathlib

/-!
# gitcinema: the navigation / playback engine

A shallow embedding of `internal/ui/model.go` (the Bubble Tea model of gitcinema) together
with the data types of `internal/git` it manipulates.

Modelling conventions

* A Go `string` is a sequence of bytes: `GoString := List UInt8`.  `lit` gives the bytes of a
  string literal, `len(s) > 0` is `s ≠ []`, `s[:len(s)-1]` is `s.dropLast`, `+` is `++`.
* `strings.Contains` is the infix relation on byte sequences.  `strings.ToLower` is a function
  of the Go standard library (full Unicode case mapping); the engine takes it as the parameter
  `toLower`.  `asciiToLower` is its restriction to ASCII text, used to evaluate examples.
* Go `int` is `Int` (no value of the engine comes near the 64-bit bounds).
* A slice is a `List`; the `nil` slice and the empty slice are both `[]`, except for
  `Model.filteredCommits`, which the program compares with `nil`: there `none` is `nil`.
* An indexing `xs[i]` is `index xs i : Option _`; `none` is the run-time panic
  "index out of range".  `Update` therefore returns an `Option`.
* `float64` speeds are rationals (the presets and `800ms / preset` are exact in `float64`).
* A `tea.Cmd` is the list of elementary commands it stands for: `nil` is `[]`,
  `tea.Batch(cmds...)` is the list itself.
-/

namespace GitCinema

/-! ## Strings -/

/-- A Go string: a sequence of bytes. -/
abbrev GoString := List UInt8

/-- UTF-8 encoding of one rune (`utf8.EncodeRune`). -/
def encodeRune (c : Char) : GoString :=
  let n := c.toNat
  if n < 0x80 then [UInt8.ofNat n]
  else if n < 0x800 then [UInt8.ofNat (0xC0 + n / 64), UInt8.ofNat (0x80 + n % 64)]
  else if n < 0x10000 then
    [UInt8.ofNat (0xE0 + n / 4096), UInt8.ofNat (0x80 + n / 64 % 64), UInt8.ofNat (0x80 + n % 64)]
  else
    [UInt8.ofNat (0xF0 + n / 262144), UInt8.ofNat (0x80 + n / 4096 % 64),
     UInt8.ofNat (0x80 + n / 64 % 64), UInt8.ofNat (0x80 + n % 64)]

/-- The conversion `string(runes)` of a rune slice. -/
def runesToString (rs : List Char) : GoString :=
  rs.flatMap encodeRune

/-- The bytes of a string literal. -/
def lit (s : String) : GoString :=
  runesToString s.toList

/-- The function `strings.Contains(s, substr)`: `substr` occurs within `s`. -/
def Contains (s substr : GoString) : Bool :=
  decide (substr <:+: s)

/-- The ASCII case of `strings.ToLower`: the bytes `A`..`Z` are mapped to `a`..`z`. -/
def asciiToLower (s : GoString) : GoString :=
  s.map (fun b => if 65 ≤ b.toNat ∧ b.toNat ≤ 90 then UInt8.ofNat (b.toNat + 32) else b)

/-- Slice indexing `xs[i]` with Go's bounds check; `none` is the index-out-of-range panic. -/
def index {α : Type} (xs : List α) (i : Int) : Option α :=
  if i < 0 then none else xs[i.toNat]?

/-- The built-in `append(s, x)` on a slice that may be `nil` (`none`): the result is never `nil`. -/
def appendSlice {α : Type} (s : Option (List α)) (x : α) : Option (List α) :=
  some (s.getD [] ++ [x])

/-! ## Data of package `git` -/

/-- The struct `git.Commit`.  `Timestamp` is the Unix time in seconds. -/
structure Commit where
  Hash : GoString
  ShortHash : GoString
  Author : GoString
  Email : GoString
  Timestamp : Int
  Subject : GoString
  Body : GoString
  Index : Int
deriving DecidableEq, Repr

/-- The zero value `git.Commit{}` (the zero `time.Time` is January 1, year 1, UTC). -/
def Commit.zero : Commit :=
  { Hash := [], ShortHash := [], Author := [], Email := [], Timestamp := -62135596800,
    Subject := [], Body := [], Index := 0 }

/-- The type `git.ChangeStatus` (an `int`). -/
abbrev ChangeStatus := Int

/-- Constant `git.StatusAdded`. -/
def StatusAdded : ChangeStatus := 0

/-- Constant `git.StatusModified`. -/
def StatusModified : ChangeStatus := 1

/-- Constant `git.StatusDeleted`. -/
def StatusDeleted : ChangeStatus := 2

/-- Constant `git.StatusRenamed`. -/
def StatusRenamed : ChangeStatus := 3

/-- The struct `git.FileChange`. -/
structure FileChange where
  Path : GoString
  OldPath : GoString
  Status : ChangeStatus
  Additions : Int
  Deletions : Int
deriving DecidableEq, Repr

/-- The struct `git.CommitStats`. -/
structure CommitStats where
  Files : Int
  Additions : Int
  Deletions : Int
  Changes : List FileChange
deriving DecidableEq, Repr

/-- The struct `git.Author`. -/
structure Author where
  Name : GoString
  Email : GoString
  Color : GoString
  Symbol : GoString
deriving DecidableEq, Repr

/-- The struct `git.Registry`: the map keyed by email as an association list, and the
insertion order. -/
structure Registry where
  authors : List (GoString × Author)
  order : List GoString
deriving DecidableEq, Repr

/-! ## The model -/

/-- The constant `speedPresets`. -/
def speedPresets : List ℚ := [1/4, 1/2, 1, 2, 4]

/-- The constant `defaultSpeedIdx` (1.0x). -/
def defaultSpeedIdx : Int := 2

/-- The constant `defaultInterval` (800 ms), in nanoseconds. -/
def defaultInterval : Int := 800 * 1000000

/-- The type `AppState`. -/
inductive AppState where
  | StateLoading
  | StateReady
  | StatePlaying
  | StateSearching
  | StateFiltering
deriving DecidableEq, Repr

/-- The type `ActivePane`. -/
inductive ActivePane where
  | PaneFiles
  | PaneDetail
deriving DecidableEq, Repr

/-- The struct `Model`.  The pointers `registry` and `currentDiff` and the interface `err`
are options (`none` is `nil`); `filteredCommits = none` is the `nil` slice ("no filter"). -/
structure Model where
  root : GoString
  branch : GoString
  maxCount : Int
  commits : List Commit
  registry : Option Registry
  cursor : Int
  fileScroll : Int
  activePane : ActivePane
  state : AppState
  playing : Bool
  speedIdx : Int
  speed : ℚ
  currentDiff : Option CommitStats
  loadingDiff : Bool
  searchQuery : GoString
  searchResults : List Int
  filterQuery : GoString
  filterAuthor : GoString
  filteredCommits : Option (List Commit)
  width : Int
  height : Int
  leftWidth : Int
  rightWidth : Int
  spinnerFrame : Int
  err : Option GoString
deriving DecidableEq

/-- The message `tea.KeyMsg`.  The program reads only `msg.String()` (field `name`) and
`msg.Runes`; they are independent fields here, which covers every key Bubble Tea delivers. -/
structure KeyMsg where
  name : GoString
  Runes : List Char
deriving DecidableEq, Repr

/-- The messages `Update` distinguishes; `other` is any message of another type. -/
inductive Msg where
  | windowSize (Width Height : Int)
  | spinnerTickMsg
  | loadDoneMsg (commits : List Commit) (registry : Option Registry) (err : Option GoString)
  | diffLoadedMsg (hash : GoString) (stats : Option CommitStats) (err : Option GoString)
  | playTickMsg
  | key (msg : KeyMsg)
  | other
deriving DecidableEq

/-- The elementary commands the engine emits: `m.loadDiff(hash)` (which runs
`git.LoadDiff(m.root, hash)`), a `tea.Tick` that delivers `playTickMsg` after `dur`
nanoseconds, the spinner tick (120 ms), and `tea.Quit`. -/
inductive Cmd where
  | loadDiff (root hash : GoString)
  | playTick (dur : Int)
  | spinnerTick
  | quit
deriving DecidableEq

/-- The constructor `New` (`speedPresets[defaultSpeedIdx]` is a constant index in range). -/
def New (root branch : GoString) (maxCount : Int) : Model :=
  { root := root, branch := branch, maxCount := maxCount, commits := [], registry := none,
    cursor := 0, fileScroll := 0, activePane := ActivePane.PaneFiles,
    state := AppState.StateLoading, playing := false, speedIdx := defaultSpeedIdx,
    speed := speedPresets.get ⟨defaultSpeedIdx.toNat, by decide⟩, currentDiff := none,
    loadingDiff := false, searchQuery := [], searchResults := [], filterQuery := [],
    filterAuthor := [], filteredCommits := none, width := 0, height := 0, leftWidth := 0,
    rightWidth := 0, spinnerFrame := 0, err := none }

/-- The command `m.loadDiff(hash)`. -/
def loadDiff (m : Model) (hash : GoString) : Cmd :=
  Cmd.loadDiff m.root hash

/-- The command `playTick(speed)`: the delay is `float64(defaultInterval) / speed`, converted
to a `time.Duration` by truncation. -/
def playTick (speed : ℚ) : Cmd :=
  let q : ℚ := (defaultInterval : ℚ) / speed
  Cmd.playTick (Int.tdiv q.num q.den)

/-- Method `activeCommits`: the filtered commits if a filter is active, otherwise all. -/
def activeCommits (m : Model) : List Commit :=
  match m.filteredCommits with
  | some fc => fc
  | none => m.commits

/-- Method `currentCommit`. -/
def currentCommit (m : Model) : Option Commit :=
  let ac := activeCommits m
  if ac.length = 0 ∨ m.cursor ≥ ac.length then some Commit.zero
  else index ac m.cursor

/-- Method `stepForward`. -/
def stepForward (m : Model) : Option (Model × List Cmd) :=
  let ac := activeCommits m
  if m.cursor < (ac.length : Int) - 1 then do
    let m1 := { m with cursor := m.cursor + 1, currentDiff := none, loadingDiff := true }
    let c ← currentCommit m1
    let cmds := [loadDiff m1 c.Hash]
    let cmds := if m1.playing then cmds ++ [playTick m1.speed] else cmds
    pure (m1, cmds)
  else
    some ({ m with playing := false, state := AppState.StateReady }, [])

/-- Method `stepBackward`. -/
def stepBackward (m : Model) : Option (Model × List Cmd) :=
  if m.cursor > 0 then do
    let m1 := { m with cursor := m.cursor - 1, currentDiff := none, loadingDiff := true }
    let c ← currentCommit m1
    pure (m1, [loadDiff m1 c.Hash])
  else
    some (m, [])

/-- Method `stopPlaying`. -/
def stopPlaying (m : Model) : Model :=
  { m with playing := false, state := AppState.StateReady }

/-- Method `recalcLayout` (Go's `/` on `int` truncates toward zero). -/
def recalcLayout (m : Model) : Model :=
  let leftWidth := Int.tdiv (m.width * 38) 100
  { m with leftWidth := leftWidth, rightWidth := m.width - leftWidth - 3 }

/-- The length of `spinnerFrames`. -/
def spinnerFramesLen : Int := 8

section Engine

variable (toLower : GoString → GoString)

/-- Method `runSearch`. -/
def runSearch (m : Model) : Model :=
  let m := { m with searchResults := [] }
  if m.searchQuery = [] then m
  else
    let q := toLower m.searchQuery
    { m with
      searchResults :=
        m.commits.enum.foldl
          (fun acc ic =>
            if Contains (toLower ic.2.Subject) q || Contains (toLower ic.2.Author) q ||
                Contains ic.2.ShortHash q then acc ++ [(ic.1 : Int)]
            else acc)
          m.searchResults }

/-- Method `handleSearchKey`. -/
def handleSearchKey (m : Model) (msg : KeyMsg) : Option (Model × List Cmd) :=
  if msg.name = lit "esc" then
    some ({ m with state := AppState.StateReady, searchQuery := [], searchResults := [] }, [])
  else if msg.name = lit "enter" then
    if m.searchResults.length > 0 then do
      let r ← index m.searchResults 0
      let m1 := { m with cursor := r, state := AppState.StateReady, currentDiff := none,
                         loadingDiff := true }
      let c ← currentCommit m1
      pure (m1, [loadDiff m1 c.Hash])
    else
      some ({ m with state := AppState.StateReady }, [])
  else if msg.name = lit "backspace" then
    if m.searchQuery.length > 0 then
      some (runSearch toLower { m with searchQuery := m.searchQuery.dropLast }, [])
    else
      some (m, [])
  else
    if msg.Runes.length > 0 then
      some (runSearch toLower
        { m with searchQuery := m.searchQuery ++ runesToString msg.Runes }, [])
    else
      some (m, [])

/-- Method `handleFilterKey`. -/
def handleFilterKey (m : Model) (msg : KeyMsg) : Option (Model × List Cmd) :=
  if msg.name = lit "esc" then
    some ({ m with state := AppState.StateReady, filterQuery := [] }, [])
  else if msg.name = lit "enter" then
    let m := { m with filterAuthor := m.filterQuery, filteredCommits := none }
    let m :=
      if m.filterAuthor ≠ [] then
        let q := toLower m.filterAuthor
        { m with
          filteredCommits :=
            m.commits.foldl
              (fun acc c =>
                if Contains (toLower c.Author) q || Contains (toLower c.Email) q then
                  appendSlice acc c
                else acc)
              m.filteredCommits }
      else m
    let m := { m with cursor := 0, currentDiff := none, loadingDiff := true,
                      state := AppState.StateReady }
    if (activeCommits m).length > 0 then do
      let c ← index (activeCommits m) 0
      pure (m, [loadDiff m c.Hash])
    else
      some (m, [])
  else if msg.name = lit "backspace" then
    if m.filterQuery.length > 0 then
      some ({ m with filterQuery := m.filterQuery.dropLast }, [])
    else
      some (m, [])
  else
    if msg.Runes.length > 0 then
      some ({ m with filterQuery := m.filterQuery ++ runesToString msg.Runes }, [])
    else
      some (m, [])

/-- Method `handleKey`. -/
def handleKey (m : Model) (msg : KeyMsg) : Option (Model × List Cmd) :=
  if m.state = AppState.StateSearching then handleSearchKey toLower m msg
  else if m.state = AppState.StateFiltering then handleFilterKey toLower m msg
  else if msg.name = lit "q" ∨ msg.name = lit "ctrl+c" then
    some (m, [Cmd.quit])
  else if msg.name = lit "j" ∨ msg.name = lit "down" then
    stepForward m
  else if msg.name = lit "k" ∨ msg.name = lit "up" then
    stepBackward m
  else if msg.name = lit "g" then do
    let m := { m with cursor := 0, currentDiff := none, loadingDiff := true }
    let c ← currentCommit m
    pure (m, [loadDiff m c.Hash])
  else if msg.name = lit "G" then do
    let m := { m with cursor := ((activeCommits m).length : Int) - 1, currentDiff := none,
                      loadingDiff := true }
    let c ← currentCommit m
    pure (m, [loadDiff m c.Hash])
  else if msg.name = lit " " then
    let m := { m with playing := !m.playing }
    if m.playing then
      let m := { m with state := AppState.StatePlaying }
      some (m, [playTick m.speed])
    else
      some ({ m with state := AppState.StateReady }, [])
  else if msg.name = lit "+" ∨ msg.name = lit "=" then
    if m.speedIdx < (speedPresets.length : Int) - 1 then do
      let m := { m with speedIdx := m.speedIdx + 1 }
      let s ← index speedPresets m.speedIdx
      pure ({ m with speed := s }, [])
    else
      some (m, [])
  else if msg.name = lit "-" then
    if m.speedIdx > 0 then do
      let m := { m with speedIdx := m.speedIdx - 1 }
      let s ← index speedPresets m.speedIdx
      pure ({ m with speed := s }, [])
    else
      some (m, [])
  else if msg.name = lit "tab" then
    if m.activePane = ActivePane.PaneFiles then
      some ({ m with activePane := ActivePane.PaneDetail }, [])
    else
      some ({ m with activePane := ActivePane.PaneFiles }, [])
  else if msg.name = lit "/" then
    let m := stopPlaying m
    some ({ m with state := AppState.StateSearching, searchQuery := [], searchResults := [] }, [])
  else if msg.name = lit "f" then
    let m := stopPlaying m
    some ({ m with state := AppState.StateFiltering, filterQuery := [] }, [])
  else if msg.name = lit "esc" then
    let m := stopPlaying m
    let m := { m with state := AppState.StateReady, filterAuthor := [], filteredCommits := none,
                      searchQuery := [], searchResults := [], cursor := 0, currentDiff := none,
                      loadingDiff := true }
    if m.commits.length > 0 then do
      let c ← index m.commits 0
      pure (m, [loadDiff m c.Hash])
    else
      some (m, [])
  else
    some (m, [])

/-- Method `Update`: one transition of the engine.  The result is the new model and the
commands emitted, or `none` when the transition panics. -/
def Update (m : Model) (msg : Msg) : Option (Model × List Cmd) :=
  match msg with
  | Msg.windowSize w h =>
    some (recalcLayout { m with width := w, height := h }, [])
  | Msg.spinnerTickMsg =>
    let m := { m with spinnerFrame := Int.tmod (m.spinnerFrame + 1) spinnerFramesLen }
    if m.state = AppState.StateLoading then some (m, [Cmd.spinnerTick]) else some (m, [])
  | Msg.loadDoneMsg commits registry err =>
    if err ≠ none then
      some ({ m with err := err, state := AppState.StateReady }, [])
    else
      let m := { m with commits := commits, registry := registry,
                        state := AppState.StateReady }
      if m.commits.length > 0 then do
        let c ← index m.commits 0
        pure (m, [loadDiff m c.Hash])
      else
        some (m, [])
  | Msg.diffLoadedMsg hash stats err =>
    let m := { m with loadingDiff := false }
    if err = none then do
      let c ← currentCommit m
      if hash = c.Hash then pure ({ m with currentDiff := stats }, [])
      else pure (m, [])
    else
      some (m, [])
  | Msg.playTickMsg =>
    if m.playing then stepForward m else some (m, [])
  | Msg.key k => handleKey toLower m k
  | Msg.other => some (m, [])

/-- The engine run on a sequence of messages, collecting the commands emitted. -/
def run (m : Model) : List Msg → Option (Model × List Cmd)
  | [] => some (m, [])
  | msg :: rest => do
    let r ← Update toLower m msg
    let r2 ← run r.1 rest
    pure (r2.1, r.2 ++ r2.2)

end Engine

/-- The filter predicate in the words of the specification: the author name or the email of
the commit contains the query, case-insensitively. -/
def authorOrEmailContainsFold (toLower : GoString → GoString) (q : GoString) (c : Commit) :
    Bool :=
  Contains (toLower c.Author) (toLower q) || Contains (toLower c.Email) (toLower q)

/-- The condition of the loop of `runSearch` for the query `q`: the lower-cased subject or
the lower-cased author name contains the lower-cased query, or the short hash, as stored,
contains the lower-cased query. -/
def searchMatches (toLower : GoString → GoString) (q : GoString) (c : Commit) : Bool :=
  Contains (toLower c.Subject) (toLower q) || Contains (toLower c.Author) (toLower q) ||
    Contains c.ShortHash (toLower q)

/-- The search predicate in the words of the specification: the subject, the author name or
the commit identifier (the full hash) contains the query, case-insensitively. -/
def specSearchMatches (toLower : GoString → GoString) (q : GoString) (c : Commit) : Bool :=
  Contains (toLower c.Subject) (toLower q) || Contains (toLower c.Author) (toLower q) ||
    Contains (toLower c.Hash) (toLower q)

/-- The search claim as the specification states it: after the query is updated to `q`,
`searchResults` is exactly the set of positions of the full history whose commit satisfies
`specSearchMatches`. -/
def SearchResultsAsStated (toLower : GoString → GoString) (m : Model) (q : GoString) : Prop :=
  ∀ z : Int, z ∈ (runSearch toLower { m with searchQuery := q }).searchResults ↔
    ∃ (i : Nat) (c : Commit), z = (i : Int) ∧ m.commits[i]? = some c ∧
      specSearchMatches toLower q c = true

/-- A key that Bubble Tea names (`enter`, `esc`, `backspace`, ...): it carries no runes. -/
def namedKey (s : String) : KeyMsg :=
  { name := lit s, Runes := [] }

/-- A typed character: `msg.String()` is the character itself, `msg.Runes` holds it. -/
def runeKey (c : Char) : KeyMsg :=
  { name := runesToString [c], Runes := [c] }

/-- The message of a named key. -/
def keyNamed (s : String) : Msg :=
  Msg.key (namedKey s)

/-- The message of a typed character. -/
def keyRune (c : Char) : Msg :=
  Msg.key (runeKey c)

/-- Typing a text, one character per key press. -/
def typeText (s : String) : List Msg :=
  s.toList.map keyRune

/-! ## Observations on commands, reachable states, pending ticks -/

/-- The hashes of the change-set fetches among the commands, in order. -/
def fetchHashes (cmds : List Cmd) : List GoString :=
  cmds.filterMap (fun c => match c with
    | Cmd.loadDiff _ h => some h
    | _ => none)

/-- The delays (in nanoseconds) of the play ticks among the commands, in order. -/
def tickDelays (cmds : List Cmd) : List Int :=
  cmds.filterMap (fun c => match c with
    | Cmd.playTick d => some d
    | _ => none)

/-- The states reachable from some `New(root, branch, maxCount)` by a sequence of messages
(every transition of the sequence returns). -/
def Reachable (toLower : GoString → GoString) (m : Model) : Prop :=
  ∃ (root branch : GoString) (maxCount : Int) (msgs : List Msg) (cmds : List Cmd),
    run toLower (New root branch maxCount) msgs = some (m, cmds)

/-- What every reachable state satisfies about the speed and the playback encodings:
`speedIdx` is an index of `speedPresets` and `speed` is the preset at that index; the playing
flag is false in the two input modes and true in `StatePlaying`. -/
def EngineInv (m : Model) : Prop :=
  0 ≤ m.speedIdx ∧ m.speedIdx ≤ 4 ∧ index speedPresets m.speedIdx = some m.speed ∧
  ((m.state = AppState.StateSearching ∨ m.state = AppState.StateFiltering) →
    m.playing = false) ∧
  (m.state = AppState.StatePlaying → m.playing = true)

/-- The engine together with the number of play ticks that are scheduled and not yet
delivered. -/
structure Config where
  model : Model
  pendingTicks : Nat
deriving DecidableEq

/-- The events of a configuration: a key press, or the delivery of a pending play tick. -/
inductive Event where
  | key (k : KeyMsg)
  | tick
deriving DecidableEq

/-- One event on a configuration: the play ticks among the emitted commands become pending,
a delivered tick is no longer pending.  The result is `none` when no tick is pending for a
delivery, or when the transition panics. -/
def stepConfig (toLower : GoString → GoString) (c : Config) : Event → Option Config
  | Event.key k => do
    let r ← Update toLower c.model (Msg.key k)
    pure { model := r.1, pendingTicks := c.pendingTicks + (tickDelays r.2).length }
  | Event.tick =>
    if c.pendingTicks = 0 then none
    else do
      let r ← Update toLower c.model Msg.playTickMsg
      pure { model := r.1, pendingTicks := c.pendingTicks - 1 + (tickDelays r.2).length }

/-- A sequence of events on a configuration. -/
def runConfig (toLower : GoString → GoString) (c : Config) : List Event → Option Config
  | [] => some c
  | e :: rest => do
    let c1 ← stepConfig toLower c e
    runConfig toLower c1 rest

/-! ## Package `git`: the change-stat cache, the ordering of changes, the history parser -/

/-- The map `diffCache` (`map[string]*CommitStats`) as an association list in which the
first binding of a key is the current one; a value is a pointer (`none` is `nil`). -/
abbrev DiffCache := List (GoString × Option CommitStats)

/-- The lookup `cached, ok := diffCache[hash]`: `none` is `ok = false`. -/
def cacheGet (cache : DiffCache) (hash : GoString) : Option (Option CommitStats) :=
  cache.lookup hash

/-- The assignment `diffCache[hash] = stats`. -/
def cacheSet (cache : DiffCache) (hash : GoString) (stats : Option CommitStats) : DiffCache :=
  (hash, stats) :: cache

/-- The external loader `loadDiff(dir, hash)`: it returns a pointer and an error. -/
abbrev Loader := GoString → GoString → Option CommitStats × Option GoString

/-- What one call of `LoadDiff` returns and does: the returned pointer and error, the cache
afterwards, and the arguments of the calls made to the external loader. -/
structure LoadDiffResult where
  stats : Option CommitStats
  err : Option GoString
  cache : DiffCache
  calls : List (GoString × GoString)
deriving DecidableEq

/-- The function `git.LoadDiff` over an explicit cache and an external loader. -/
def LoadDiff (loader : Loader) (cache : DiffCache) (dir hash : GoString) : LoadDiffResult :=
  match cacheGet cache hash with
  | some cached => { stats := cached, err := none, cache := cache, calls := [] }
  | none =>
    let r := loader dir hash
    if r.2 ≠ none then
      { stats := none, err := r.2, cache := cache, calls := [(dir, hash)] }
    else
      { stats := r.1, err := none, cache := cacheSet cache hash r.1, calls := [(dir, hash)] }

/-- One request to `LoadDiff`, with the behaviour of the external loader at that time. -/
structure Request where
  loader : Loader
  dir : GoString
  hash : GoString

/-- The cache after a sequence of requests. -/
def serve (cache : DiffCache) (reqs : List Request) : DiffCache :=
  reqs.foldl (fun c r => (LoadDiff r.loader c r.dir r.hash).cache) cache

/-- The closure `order` of `sortChanges`. -/
def order (s : ChangeStatus) : Int :=
  if s = StatusAdded then 0
  else if s = StatusModified then 1
  else if s = StatusRenamed then 2
  else if s = StatusDeleted then 3
  else 4

/-- The body of the inner loop of `sortChanges` for the indices `i` and `j`:
`if order(changes[j].Status) < order(changes[i].Status)` then the two entries are swapped.
The loop bounds keep both indices in range. -/
def sortInner (i j : Nat) (changes : List FileChange) : List FileChange :=
  match changes[i]?, changes[j]? with
  | some a, some b =>
    if order b.Status < order a.Status then (changes.set i b).set j a else changes
  | _, _ => changes

/-- The function `sortChanges`, returning the slice it sorts in place:
`for i := 0; i < len-1; i++ { for j := i+1; j < len; j++ { ... } }`. -/
def sortChanges (changes : List FileChange) : List FileChange :=
  (List.range (changes.length - 1)).foldl
    (fun cs i =>
      (List.range' (i + 1) (changes.length - (i + 1))).foldl (fun cs j => sortInner i j cs) cs)
    changes

/-- The rank `order(changes[k].Status)` of the entry at index `k` (4, the rank of an unknown
status, when there is no such entry). -/
def rankAt (changes : List FileChange) (k : Nat) : Int :=
  match changes[k]? with
  | some c => order c.Status
  | none => 4

/-- The stability claim as the specification states it: for every status, the entries of
that status appear in the output in the same order as in the input. -/
def StableAsStated (changes : List FileChange) : Prop :=
  ∀ s : ChangeStatus,
    (sortChanges changes).filter (fun c => decide (c.Status = s)) =
      changes.filter (fun c => decide (c.Status = s))

/-- The function `strings.SplitN(s, sep, n)` for a one-byte separator and `n ≥ 0`: at most
`n` pieces, the last one the unsplit remainder. -/
def splitN (sep : UInt8) : Nat → GoString → List GoString
  | 0, _ => []
  | 1, s => [s]
  | n + 2, s =>
    match s.span (fun b => b ≠ sep) with
    | (piece, []) => [piece]
    | (piece, _ :: rest) => piece :: splitN sep (n + 1) rest

/-- The function `strings.Split(s, sep)` for a one-byte separator: all the pieces (there are
at most `len(s) + 1`). -/
def split (sep : UInt8) (s : GoString) : List GoString :=
  splitN sep (s.length + 1) s

/-- The loop of `LoadHistory` over the output `out` of `git log`: empty lines and lines with
fewer than six `|`-separated fields are skipped, every other line gives a commit whose
`Index` is the loop index `i`.  `strings.TrimSpace` and `strconv.ParseInt(_, 10, 64)` (whose
error is discarded) are functions of the Go standard library, taken as parameters. -/
def LoadHistory (trimSpace : GoString → GoString) (parseInt : GoString → Int)
    (out : GoString) : List Commit :=
  (split 10 (trimSpace out)).enum.foldl
    (fun commits il =>
      if il.2 = [] then commits
      else
        let parts := splitN 124 6 il.2
        if parts.length < 6 then commits
        else
          commits ++ [{ Hash := parts.getD 0 [], ShortHash := parts.getD 1 [],
                        Author := parts.getD 2 [], Email := parts.getD 3 [],
                        Timestamp := parseInt (parts.getD 4 []), Subject := parts.getD 5 [],
                        Body := [], Index := (il.1 : Int) }])
    []

/-- The ASCII case of `strings.TrimSpace`: leading and trailing tab, newline, vertical tab,
form feed, carriage return and space are removed. -/
def asciiTrimSpace (s : GoString) : GoString :=
  let isSpace : UInt8 → Bool := fun b => b = 9 ∨ b = 10 ∨ b = 11 ∨ b = 12 ∨ b = 13 ∨ b = 32
  ((s.dropWhile isSpace).reverse.dropWhile isSpace).reverse

/-- The case of `strconv.ParseInt(s, 10, 64)` on a non-empty string of at most 18 decimal
digits, used to evaluate examples (on any other string this instance gives 0). -/
def parseDigits (s : GoString) : Int :=
  if s ≠ [] ∧ s.length ≤ 18 ∧ s.all (fun b => 48 ≤ b.toNat ∧ b.toNat ≤ 57) then
    s.foldl (fun acc b => acc * 10 + ((b.toNat : Int) - 48)) 0
  else 0

/-! ## The presentation layer: which commit is displayed as selected -/

/-- The commit `renderDetail` displays, `c := m.commits[m.cursor]`; `some none` is the text
"No commits loaded.", `none` is the index-out-of-range panic. -/
def renderDetailCommit (m : Model) : Option (Option Commit) :=
  if m.commits.length = 0 ∨ m.cursor ≥ m.commits.length then some none
  else (index m.commits m.cursor).map some

/-- The commit `renderTimeline` displays, `c := m.commits[m.cursor]`; `some none` is the
text "no commits", `none` is the index-out-of-range panic. -/
def renderTimelineCommit (m : Model) : Option (Option Commit) :=
  if m.commits.length = 0 then some none
  else (index m.commits m.cursor).map some

/-! ## The engine with its change-set fetches in flight, and what the collaborators deliver -/

/-- The engine together with the hashes of the change-set fetches that are issued and not
yet completed. -/
structure FetchConfig where
  model : Model
  inFlight : List GoString
deriving DecidableEq

/-- The events of a configuration with fetches: a message that is not a fetch completion,
or the completion of a fetch in flight. -/
inductive FetchEvent where
  | msg (m : Msg)
  | complete (hash : GoString) (stats : Option CommitStats) (err : Option GoString)
deriving DecidableEq

/-- One event on a configuration with fetches: the fetches among the emitted commands are in
flight from then on, a completed fetch no longer is.  The result is `none` when the
completed fetch is not in flight, or when the transition panics. -/
def stepFetch (toLower : GoString → GoString) (c : FetchConfig) : FetchEvent → Option FetchConfig
  | FetchEvent.msg x => do
    let r ← Update toLower c.model x
    pure { model := r.1, inFlight := c.inFlight ++ fetchHashes r.2 }
  | FetchEvent.complete hash stats err =>
    if hash ∈ c.inFlight then do
      let r ← Update toLower c.model (Msg.diffLoadedMsg hash stats err)
      pure { model := r.1, inFlight := c.inFlight.erase hash ++ fetchHashes r.2 }
    else none

/-- A sequence of events on a configuration with fetches. -/
def runFetch (toLower : GoString → GoString) (c : FetchConfig) :
    List FetchEvent → Option FetchConfig
  | [] => some c
  | e :: rest => do
    let c1 ← stepFetch toLower c e
    runFetch toLower c1 rest

/-- A history-load completion. -/
def isLoadDone : Msg → Bool
  | Msg.loadDoneMsg _ _ _ => true
  | _ => false

/-- Every message but a successful change-set completion for the empty hash. -/
def isDeliverable : Msg → Bool
  | Msg.diffLoadedMsg hash _ none => decide (hash ≠ [])
  | _ => true

/-- What the collaborators deliver to one engine: at most one history-load completion (the
command of `Init`), and no successful change-set completion for the empty hash (`git show`
fails on an empty revision). -/
def envOK (msgs : List Msg) : Bool :=
  decide ((msgs.filter isLoadDone).length ≤ 1) && msgs.all isDeliverable

/-- What a transition other than a completion does, as far as the displayed change set is
concerned: the history is unchanged, a `nil` filter on an empty history stays `nil`, at most
one fetch is emitted, and either `currentDiff` is `nil` afterwards or `currentDiff`, the
cursor and the filtered view are unchanged. -/
def Framed (m m1 : Model) (cmds : List Cmd) : Prop :=
  m1.commits = m.commits ∧
  (m.commits = [] → m.filteredCommits = none → m1.filteredCommits = none) ∧
  (fetchHashes cmds).length ≤ 1 ∧
  (m1.currentDiff = none ∨
    (m1.currentDiff = m.currentDiff ∧ m1.cursor = m.cursor ∧
      m1.filteredCommits = m.filteredCommits))

/-- The displayed change set belongs to the selected commit, for the state `m` reached by
the messages `msgs`: a non-`nil` `currentDiff` was carried by a successful `diffLoadedMsg`
of `msgs` whose hash is the hash of the commit under the cursor; and as long as no history
is loaded there is no history, no filter and no displayed change set. -/
def DiffInv (msgs : List Msg) (m : Model) : Prop :=
  (∀ d, m.currentDiff = some d →
    ∃ h c, Msg.diffLoadedMsg h (some d) none ∈ msgs ∧ currentCommit m = some c ∧
      h = c.Hash) ∧
  ((∀ x ∈ msgs, isLoadDone x = false) →
    m.commits = [] ∧ m.filteredCommits = none ∧ m.currentDiff = none)

/-! ## Example data -/

/-- A commit as `LoadHistory` builds it from one line of `git log`. -/
def exampleCommit (hash short author email subject : String) (idx : Int) : Commit :=
  { Hash := lit hash, ShortHash := lit short, Author := lit author, Email := lit email,
    Timestamp := 1700000000 + idx, Subject := lit subject, Body := [], Index := idx }

/-- First commit of the example history, by Bob. -/
def c0 : Commit :=
  exampleCommit "c0a1b2c3d4e5f60718293a4b5c6d7e8f90123456" "c0a1b2c" "Bob" "bob@example.org"
    "init" 0

/-- Second commit of the example history, by Alice. -/
def c1 : Commit :=
  exampleCommit "c1d2e3f4a5b60718293a4b5c6d7e8f9012345678" "c1d2e3f" "Alice" "alice@example.org"
    "add parser" 1

/-- Third commit of the example history, by Bob. -/
def c2 : Commit :=
  exampleCommit "c2e3f4a5b6c70819203a4b5c6d7e8f9012345679" "c2e3f4a" "Bob" "bob@example.org"
    "fix parser" 2

/-- Fourth commit of the example history, by Alice. -/
def c3 : Commit :=
  exampleCommit "c3f4a5b6c7d80910213a4b5c6d7e8f901234567a" "c3f4a5b" "Alice" "alice@example.org"
    "add docs" 3

/-- The example history `c0 .. c3`. -/
def exampleHistory : List Commit := [c0, c1, c2, c3]

/-- The initial model of the examples. -/
def exampleNew : Model := New (lit "/repo") (lit "main") 0

/-- The history-load completion of the examples. -/
def exampleLoad : Msg := Msg.loadDoneMsg exampleHistory none none

/-- The model after the example history has been loaded: ready, cursor 0, no filter. -/
def exampleModel : Model :=
  { exampleNew with commits := exampleHistory, state := AppState.StateReady }

/-- The example model in filter mode with the query `q` typed. -/
def exampleFiltering (q : String) : Model :=
  { exampleModel with state := AppState.StateFiltering, filterQuery := lit q }

/-- The example model in search mode, no query typed yet. -/
def exampleSearching : Model :=
  { exampleModel with state := AppState.StateSearching }

/-- A model whose only commit has an upper-case hash (no `git` prints such a hash). -/
def exampleUpperModel : Model :=
  { exampleNew with
    commits := [exampleCommit "ABCDEF0123456789ABCDEF0123456789ABCDEF01" "ABCDEF0" "Bob"
      "bob@example.org" "init" 0],
    state := AppState.StateSearching }

/-- Fifth commit, by Bob, for the five-commit scenario `c0 .. c4`. -/
def c4 : Commit :=
  exampleCommit "c4a5b6c7d8e90011223a4b5c6d7e8f901234567b" "c4a5b6c" "Bob" "bob@example.org"
    "release" 4

/-- The five-commit history `c0 .. c4`. -/
def fiveHistory : List Commit := [c0, c1, c2, c3, c4]

/-- The model after the five-commit history has been loaded. -/
def fiveModel : Model :=
  { exampleNew with commits := fiveHistory, state := AppState.StateReady }

/-- The example model while playing at the default speed, cursor on `c0`. -/
def examplePlaying : Model :=
  { exampleModel with playing := true, state := AppState.StatePlaying }

/-- The five-commit model after `G`: cursor on `c4`, the fetch for `c4` pending. -/
def fiveAtLast : Model :=
  { fiveModel with cursor := 4, loadingDiff := true }

/-- The example model after `j`: cursor on `c1`, the fetch for `c1` pending. -/
def exampleAtSecond : Model :=
  { exampleModel with cursor := 1, loadingDiff := true }

/-- The example model with the author filter `alice` active and the cursor on `c3`. -/
def exampleFiltered : Model :=
  { exampleModel with filterQuery := lit "alice", filterAuthor := lit "alice",
                      filteredCommits := some [c1, c3], cursor := 1, loadingDiff := true }

/-- A change set as `LoadDiff` returns it: one added file. -/
def exampleStats : CommitStats :=
  { Files := 1, Additions := 3, Deletions := 0,
    Changes := [{ Path := lit "README.md", OldPath := [], Status := StatusAdded,
                  Additions := 3, Deletions := 0 }] }

/-- Three file changes in the order `git show --numstat` lists them: two modified files and
an added one. -/
def exampleChanges : List FileChange :=
  [{ Path := lit "a.go", OldPath := [], Status := StatusModified, Additions := 1,
     Deletions := 1 },
   { Path := lit "b.go", OldPath := [], Status := StatusModified, Additions := 2,
     Deletions := 0 },
   { Path := lit "c.go", OldPath := [], Status := StatusAdded, Additions := 5,
     Deletions := 0 }]

/-- The output of `git log --reverse --format=%H|%h|%an|%ae|%at|%s` for two commits when
signatures are shown (`log.showSignature`): a `gpg:` line precedes the first commit. -/
def exampleLogOutput : GoString :=
  lit ("gpg: Signature made Tue Nov 14 2023\n" ++
    "c0a1b2c3d4e5f60718293a4b5c6d7e8f90123456|c0a1b2c|Bob|bob@example.org|1700000000|init\n" ++
    "c1d2e3f4a5b60718293a4b5c6d7e8f9012345678|c1d2e3f|Alice|alice@example.org|1700000001|" ++
    "add parser\n")

/-- An external loader that fails for every hash (`git show` exits with an error). -/
def failingLoader : Loader :=
  fun _ _ => (none, some (lit "git show --numstat: exit status 128"))

/-- An external loader that succeeds with the example change set for every hash. -/
def workingLoader : Loader :=
  fun _ _ => (some exampleStats, none)

/-- Requests for other commits than `c0`: a failing one for `c1`, a working one for `c2`. -/
def exampleRequests : List Request :=
  [{ loader := failingLoader, dir := lit "/repo", hash := c1.Hash },
   { loader := workingLoader, dir := lit "/repo", hash := c2.Hash }]

/-- The example model once the change set of `c0` has been delivered. -/
def exampleShown : Model :=
  { exampleModel with currentDiff := some exampleStats }

/-! ## Auxiliary facts -/

theorem index_of_valid {α : Type} (xs : List α) (i : Int) (h0 : 0 ≤ i) (h1 : i < xs.length) :
    ∃ x, index xs i = some x ∧ xs[i.toNat]? = some x := by
  have hlt : i.toNat < xs.length := by omega
  refine ⟨xs[i.toNat], ?_, ?_⟩
  · simp [index, List.getElem?_eq_getElem hlt]; omega
  · exact List.getElem?_eq_getElem hlt

theorem currentCommit_of_valid (m : Model) (h0 : 0 ≤ m.cursor)
    (h1 : m.cursor < (activeCommits m).length) :
    ∃ c, currentCommit m = some c ∧ (activeCommits m)[m.cursor.toNat]? = some c := by
  obtain ⟨c, hc, hc2⟩ := index_of_valid (activeCommits m) m.cursor h0 h1
  refine ⟨c, ?_, hc2⟩
  have hne : ¬ ((activeCommits m).length = 0 ∨ m.cursor ≥ (activeCommits m).length) := by omega
  simp only [currentCommit, hne, if_false, hc]

theorem currentCommit_total_of_nonneg (m : Model) (h0 : 0 ≤ m.cursor) :
    ∃ c, currentCommit m = some c := by
  by_cases h : (activeCommits m).length = 0 ∨ m.cursor ≥ (activeCommits m).length
  · exact ⟨Commit.zero, by simp only [currentCommit, h, if_true]⟩
  · obtain ⟨c, hc, _⟩ := currentCommit_of_valid m h0 (by omega)
    exact ⟨c, hc⟩

theorem currentCommit_total_of_last (m : Model)
    (h : m.cursor = ((activeCommits m).length : Int) - 1) :
    ∃ c, currentCommit m = some c := by
  by_cases h0 : (activeCommits m).length = 0
  · exact ⟨Commit.zero, by simp only [currentCommit, h0, true_or, if_true]⟩
  · exact currentCommit_total_of_nonneg m (by omega)

theorem stepForward_of_lt (m : Model) (c : Commit)
    (h1 : m.cursor < ((activeCommits m).length : Int) - 1)
    (hc : currentCommit { m with cursor := m.cursor + 1, currentDiff := none,
                                 loadingDiff := true } = some c) :
    stepForward m =
      some ({ m with cursor := m.cursor + 1, currentDiff := none, loadingDiff := true },
        if m.playing then [Cmd.loadDiff m.root c.Hash, playTick m.speed]
        else [Cmd.loadDiff m.root c.Hash]) := by
  simp only [stepForward, h1, if_true, hc, Option.bind_eq_bind, Option.some_bind, loadDiff]
  cases m.playing <;> rfl

theorem stepForward_of_not_lt (m : Model)
    (h1 : ¬ m.cursor < ((activeCommits m).length : Int) - 1) :
    stepForward m = some ({ m with playing := false, state := AppState.StateReady }, []) := by
  simp only [stepForward, h1, if_false]

theorem stepBackward_of_pos (m : Model) (c : Commit) (h1 : m.cursor > 0)
    (hc : currentCommit { m with cursor := m.cursor - 1, currentDiff := none,
                                 loadingDiff := true } = some c) :
    stepBackward m =
      some ({ m with cursor := m.cursor - 1, currentDiff := none, loadingDiff := true },
        [Cmd.loadDiff m.root c.Hash]) := by
  simp only [stepBackward, h1, if_true, hc, Option.bind_eq_bind, Option.some_bind, loadDiff]
  rfl

/-- C9: from a cursor `p` that is a valid index of the active view other than the last one,
`stepForward` followed by `stepBackward` both return and bring the cursor back to `p`. -/
theorem stepForward_stepBackward_cursor (m : Model) (h0 : 0 ≤ m.cursor)
    (h1 : m.cursor < ((activeCommits m).length : Int) - 1) :
    ∃ m1 cmds1 m2 cmds2, stepForward m = some (m1, cmds1) ∧
      stepBackward m1 = some (m2, cmds2) ∧
      m1.cursor = m.cursor + 1 ∧ m2.cursor = m.cursor := by
  obtain ⟨c, hc⟩ := currentCommit_total_of_nonneg
    { m with cursor := m.cursor + 1, currentDiff := none, loadingDiff := true }
    (show 0 ≤ m.cursor + 1 by omega)
  obtain ⟨d, hd⟩ := currentCommit_total_of_nonneg
    { m with cursor := m.cursor + 1 - 1, currentDiff := none, loadingDiff := true }
    (show 0 ≤ m.cursor + 1 - 1 by omega)
  exact ⟨_, _, _, _, stepForward_of_lt m c h1 hc,
    stepBackward_of_pos _ d (show m.cursor + 1 > 0 by omega) hd, rfl,
    show m.cursor + 1 - 1 = m.cursor by omega⟩

section EngineFacts

variable (toLower : GoString → GoString)

theorem handleKey_G (m : Model) (k : KeyMsg) (c : Commit)
    (hs : m.state ≠ AppState.StateSearching) (hf : m.state ≠ AppState.StateFiltering)
    (hk : k.name = lit "G")
    (hc : currentCommit { m with cursor := ((activeCommits m).length : Int) - 1,
                                 currentDiff := none, loadingDiff := true } = some c) :
    handleKey toLower m k =
      some ({ m with cursor := ((activeCommits m).length : Int) - 1, currentDiff := none,
                     loadingDiff := true }, [Cmd.loadDiff m.root c.Hash]) := by
  simp +decide [handleKey, hs, hf, hk, hc, loadDiff]

theorem handleKey_j (m : Model) (k : KeyMsg)
    (hs : m.state ≠ AppState.StateSearching) (hf : m.state ≠ AppState.StateFiltering)
    (hk : k.name = lit "j" ∨ k.name = lit "down") :
    handleKey toLower m k = stepForward m := by
  rcases hk with hk | hk <;> simp +decide [handleKey, hs, hf, hk]

/-- C10: outside the search and filter input modes, key `G` sets the cursor to
`len(activeCommits) - 1` (the last position of the active view) and a following key `j`
(or `down`) returns, leaves the cursor there and emits no command. -/
theorem jumpToLast_then_advance (m : Model) (kG kj : KeyMsg)
    (hs : m.state ≠ AppState.StateSearching) (hf : m.state ≠ AppState.StateFiltering)
    (hG : kG.name = lit "G") (hj : kj.name = lit "j" ∨ kj.name = lit "down") :
    ∃ m1 cmds1 m2, Update toLower m (Msg.key kG) = some (m1, cmds1) ∧
      m1.cursor = ((activeCommits m).length : Int) - 1 ∧
      activeCommits m1 = activeCommits m ∧
      Update toLower m1 (Msg.key kj) = some (m2, []) ∧
      m2.cursor = m1.cursor ∧ activeCommits m2 = activeCommits m := by
  obtain ⟨c, hc⟩ := currentCommit_total_of_last
    { m with cursor := ((activeCommits m).length : Int) - 1, currentDiff := none,
             loadingDiff := true } rfl
  exact ⟨_, _, _, handleKey_G toLower m kG c hs hf hG hc, rfl, rfl,
    (handleKey_j toLower
      { m with cursor := ((activeCommits m).length : Int) - 1, currentDiff := none,
               loadingDiff := true } kj hs hf hj).trans
      (stepForward_of_not_lt _ (lt_irrefl _)), rfl, rfl⟩

theorem runSearch_frame (m : Model) :
    (runSearch toLower m).cursor = m.cursor ∧
    (runSearch toLower m).filteredCommits = m.filteredCommits ∧
    (runSearch toLower m).commits = m.commits ∧
    (runSearch toLower m).currentDiff = m.currentDiff ∧
    (runSearch toLower m).state = m.state ∧
    (runSearch toLower m).playing = m.playing ∧
    (runSearch toLower m).speed = m.speed ∧
    (runSearch toLower m).speedIdx = m.speedIdx ∧
    (runSearch toLower m).searchQuery = m.searchQuery := by
  unfold runSearch
  by_cases h : m.searchQuery = [] <;> simp [h]

/-- Every key other than `enter` pressed in search mode: the transition returns, emits no
command, and changes at most `state` (to ready, on `esc`), `searchQuery` and
`searchResults`. -/
theorem handleSearchKey_not_enter (m : Model) (k : KeyMsg) (hk : k.name ≠ lit "enter") :
    ∃ m1, handleSearchKey toLower m k = some (m1, []) ∧
      m1.cursor = m.cursor ∧ m1.filteredCommits = m.filteredCommits ∧
      m1.commits = m.commits ∧ m1.currentDiff = m.currentDiff ∧
      m1.playing = m.playing ∧ m1.speed = m.speed ∧ m1.speedIdx = m.speedIdx ∧
      (m1.state = m.state ∨ (k.name = lit "esc" ∧ m1.state = AppState.StateReady ∧
        m1.searchQuery = [] ∧ m1.searchResults = [])) := by
  unfold handleSearchKey
  by_cases hesc : k.name = lit "esc"
  · simp [hesc]
  · by_cases hb : k.name = lit "backspace"
    · by_cases hq : m.searchQuery.length > 0
      · obtain ⟨h1, h2, h3, h4, h5, h6, h7, h8, _⟩ :=
          runSearch_frame toLower { m with searchQuery := m.searchQuery.dropLast }
        simp only [hesc, hk, hb, hq, if_true, if_false]
        exact ⟨_, rfl, h1, h2, h3, h4, h6, h7, h8, Or.inl h5⟩
      · simp only [hesc, hk, hb, hq, if_true, if_false]
        exact ⟨_, rfl, rfl, rfl, rfl, rfl, rfl, rfl, rfl, Or.inl rfl⟩
    · by_cases hr : k.Runes.length > 0
      · obtain ⟨h1, h2, h3, h4, h5, h6, h7, h8, _⟩ :=
          runSearch_frame toLower
            { m with searchQuery := m.searchQuery ++ runesToString k.Runes }
        simp only [hesc, hk, hb, hr, if_true, if_false]
        exact ⟨_, rfl, h1, h2, h3, h4, h6, h7, h8, Or.inl h5⟩
      · simp only [hesc, hk, hb, hr, if_true, if_false]
        exact ⟨_, rfl, rfl, rfl, rfl, rfl, rfl, rfl, rfl, Or.inl rfl⟩

theorem activeCommits_congr (m1 m : Model) (hf : m1.filteredCommits = m.filteredCommits)
    (hc : m1.commits = m.commits) : activeCommits m1 = activeCommits m := by
  simp only [activeCommits, hf, hc]

/-- C8: in search mode every key other than `enter` returns, emits no command (so no
navigation fetch, no play tick, no quit) and leaves the cursor, the active view, the playing
flag and the speed unchanged; the mode stays searching or, on `esc`, becomes ready. -/
theorem search_mode_is_modal (m : Model) (k : KeyMsg)
    (hs : m.state = AppState.StateSearching) (hk : k.name ≠ lit "enter") :
    ∃ m1, Update toLower m (Msg.key k) = some (m1, []) ∧
      m1.cursor = m.cursor ∧ activeCommits m1 = activeCommits m ∧
      m1.playing = m.playing ∧ m1.speed = m.speed ∧ m1.speedIdx = m.speedIdx ∧
      (m1.state = AppState.StateSearching ∨ m1.state = AppState.StateReady) := by
  obtain ⟨m1, h, h1, h2, h3, _, h5, h6, h7, h8⟩ := handleSearchKey_not_enter toLower m k hk
  refine ⟨m1, ?_, h1, activeCommits_congr m1 m h2 h3, h5, h6, h7, ?_⟩
  · show handleKey toLower m k = _
    simp only [handleKey, hs, if_true]
    exact h
  · rcases h8 with h8 | ⟨_, h8, _⟩
    · exact Or.inl (h8.trans hs)
    · exact Or.inr h8

theorem filterLoop_eq (p : Commit → Bool) (cs : List Commit) (acc : Option (List Commit)) :
    cs.foldl (fun acc c => if p c = true then appendSlice acc c else acc) acc =
      if cs.filter p = [] then acc else some (acc.getD [] ++ cs.filter p) := by
  induction cs generalizing acc with
  | nil => simp
  | cons c cs ih =>
    rw [List.foldl_cons, ih]
    by_cases hp : p c = true
    · by_cases hcs : cs.filter p = [] <;> simp [hp, hcs, appendSlice]
    · by_cases hcs : cs.filter p = [] <;> simp [hp, hcs]

/-- The transition `enter` of filter mode, in closed form. -/
theorem handleFilterKey_enter (m : Model) (k : KeyMsg) (hk : k.name = lit "enter") :
    handleFilterKey toLower m k =
      some ({ m with
              filterAuthor := m.filterQuery,
              filteredCommits :=
                if m.filterQuery = [] ∨
                    m.commits.filter (authorOrEmailContainsFold toLower m.filterQuery) = []
                then none
                else some (m.commits.filter (authorOrEmailContainsFold toLower m.filterQuery)),
              cursor := 0, currentDiff := none, loadingDiff := true,
              state := AppState.StateReady },
        match (if m.filterQuery = [] ∨
                  m.commits.filter (authorOrEmailContainsFold toLower m.filterQuery) = []
               then m.commits
               else m.commits.filter (authorOrEmailContainsFold toLower m.filterQuery)) with
        | [] => []
        | c :: _ => [Cmd.loadDiff m.root c.Hash]) := by
  have hloop : m.commits.foldl
      (fun acc c =>
        if (Contains (toLower c.Author) (toLower m.filterQuery) ||
            Contains (toLower c.Email) (toLower m.filterQuery)) = true then
          appendSlice acc c
        else acc) none =
      if m.commits.filter (authorOrEmailContainsFold toLower m.filterQuery) = [] then none
      else some (m.commits.filter (authorOrEmailContainsFold toLower m.filterQuery)) := by
    exact filterLoop_eq (authorOrEmailContainsFold toLower m.filterQuery) m.commits none
  by_cases hq : m.filterQuery = []
  · cases hc : m.commits <;>
      simp +decide [handleFilterKey, hk, hq, hc, activeCommits, index, loadDiff]
  · simp +decide only [handleFilterKey, hk, hq, hloop, if_true, if_false, ne_eq,
      not_false_eq_true, false_or]
    by_cases hf : m.commits.filter (authorOrEmailContainsFold toLower m.filterQuery) = []
    · simp only [hf, if_true, activeCommits]
      cases hc : m.commits <;> simp [index, loadDiff]
    · simp only [hf, if_false, activeCommits]
      cases hl : m.commits.filter (authorOrEmailContainsFold toLower m.filterQuery) with
      | nil => exact absurd hl hf
      | cons c cs => simp [index, loadDiff]

theorem handleKey_filtering (m : Model) (k : KeyMsg) (hs : m.state = AppState.StateFiltering) :
    handleKey toLower m k = handleFilterKey toLower m k := by
  simp [handleKey, hs]

theorem handleKey_searching (m : Model) (k : KeyMsg) (hs : m.state = AppState.StateSearching) :
    handleKey toLower m k = handleSearchKey toLower m k := by
  simp [handleKey, hs]

/-- C3: in filter mode with a non-empty query that matches at least one commit, `enter`
returns; the active view becomes the commits of the full history, in their original order,
whose author name or email contains the query case-insensitively; the cursor is 0 and
selects the first of them, the mode is ready, and exactly one fetch is emitted, for the hash
of that first commit. -/
theorem confirm_filter_selects_matches (m : Model) (k : KeyMsg)
    (hs : m.state = AppState.StateFiltering) (hq : m.filterQuery ≠ [])
    (hk : k.name = lit "enter")
    (hm : ∃ c ∈ m.commits, authorOrEmailContainsFold toLower m.filterQuery c = true) :
    ∃ m1 c0 rest, Update toLower m (Msg.key k) = some (m1, [Cmd.loadDiff m.root c0.Hash]) ∧
      activeCommits m1 = m.commits.filter (authorOrEmailContainsFold toLower m.filterQuery) ∧
      activeCommits m1 = c0 :: rest ∧ m1.cursor = 0 ∧ currentCommit m1 = some c0 ∧
      m1.state = AppState.StateReady ∧ m1.filterAuthor = m.filterQuery := by
  obtain ⟨c, hc, hcm⟩ := hm
  have hne : m.commits.filter (authorOrEmailContainsFold toLower m.filterQuery) ≠ [] :=
    List.ne_nil_of_mem (List.mem_filter.mpr ⟨hc, hcm⟩)
  have hcond : ¬ (m.filterQuery = [] ∨
      m.commits.filter (authorOrEmailContainsFold toLower m.filterQuery) = []) := by
    rintro (h | h)
    · exact hq h
    · exact hne h
  have hstep := handleFilterKey_enter toLower m k hk
  rw [if_neg hcond, if_neg hcond] at hstep
  cases hl : m.commits.filter (authorOrEmailContainsFold toLower m.filterQuery) with
  | nil => exact absurd hl hne
  | cons c0 rest =>
    have hcmds : (match m.commits.filter (authorOrEmailContainsFold toLower m.filterQuery) with
        | [] => []
        | c :: _ => [Cmd.loadDiff m.root c.Hash]) = [Cmd.loadDiff m.root c0.Hash] := by
      rw [hl]
    rw [hcmds] at hstep
    exact ⟨_, c0, rest, (handleKey_filtering toLower m k hs).trans hstep, hl, hl,
      rfl, by simp [currentCommit, activeCommits, index, hl], rfl, rfl⟩

/-- C4: in filter mode with an empty filter query, `enter` returns and clears the filter,
whatever filter was active before: `filterAuthor` is empty, `filteredCommits` is `nil`, the
active view is the full history and the cursor is 0. -/
theorem confirm_empty_filter_clears (m : Model) (k : KeyMsg)
    (hs : m.state = AppState.StateFiltering) (hq : m.filterQuery = [])
    (hk : k.name = lit "enter") :
    ∃ m1 cmds, Update toLower m (Msg.key k) = some (m1, cmds) ∧
      m1.filterAuthor = [] ∧ m1.filteredCommits = none ∧
      activeCommits m1 = m.commits ∧ m1.cursor = 0 ∧ m1.state = AppState.StateReady := by
  have hstep := handleFilterKey_enter toLower m k hk
  rw [if_pos (Or.inl hq), if_pos (Or.inl hq)] at hstep
  exact ⟨_, _, (handleKey_filtering toLower m k hs).trans hstep, hq, rfl, rfl, rfl, rfl⟩

theorem searchLoop_eq (p : Nat × Commit → Bool) (xs : List (Nat × Commit)) (acc : List Int) :
    xs.foldl (fun acc ic => if p ic = true then acc ++ [(ic.1 : Int)] else acc) acc =
      acc ++ (xs.filter p).map (fun ic => (ic.1 : Int)) := by
  induction xs generalizing acc with
  | nil => simp
  | cons x xs ih =>
    rw [List.foldl_cons, ih]
    by_cases hp : p x = true <;> simp [hp]

/-- The result list computed by `runSearch`, in closed form. -/
theorem runSearch_results (m : Model) :
    (runSearch toLower m).searchResults =
      if m.searchQuery = [] then []
      else (m.commits.enum.filter (fun ic => searchMatches toLower m.searchQuery ic.2)).map
        (fun ic => (ic.1 : Int)) := by
  have hloop := searchLoop_eq (fun ic => searchMatches toLower m.searchQuery ic.2)
    m.commits.enum []
  by_cases hq : m.searchQuery = []
  · simp [runSearch, hq]
  · simp only [runSearch, hq, if_false]
    exact hloop

theorem mem_runSearch_results (m : Model) (z : Int) :
    z ∈ (runSearch toLower m).searchResults ↔
      m.searchQuery ≠ [] ∧ ∃ (i : Nat) (c : Commit), z = (i : Int) ∧ m.commits[i]? = some c ∧
        searchMatches toLower m.searchQuery c = true := by
  rw [runSearch_results]
  by_cases hq : m.searchQuery = []
  · simp [hq]
  · simp only [hq, if_false, ne_eq, not_false_eq_true, true_and, List.mem_map, List.mem_filter]
    constructor
    · rintro ⟨⟨i, c⟩, ⟨hmem, hp⟩, rfl⟩
      exact ⟨i, c, rfl, List.mk_mem_enum_iff_getElem?.mp hmem, hp⟩
    · rintro ⟨i, c, rfl, hget, hp⟩
      exact ⟨(i, c), ⟨List.mk_mem_enum_iff_getElem?.mpr hget, hp⟩, rfl⟩

/-- C5 (amended): after the search query is updated to `Q`, `searchResults` is exactly the set
of positions `i` of the full history such that `Q` is non-empty and the lower-cased subject
or the lower-cased author name of commit `i` contains the lower-cased `Q`, or the short hash
of commit `i`, as stored, contains the lower-cased `Q`.  This holds of `runSearch` for every
query, and of every key of search mode other than `esc` and `enter` that changes the query
(a typed rune, a backspace). -/
theorem searchResults_after_query_update (m : Model) :
    (∀ (Q : GoString) (z : Int),
      z ∈ (runSearch toLower { m with searchQuery := Q }).searchResults ↔
        Q ≠ [] ∧ ∃ (i : Nat) (c : Commit), z = (i : Int) ∧ m.commits[i]? = some c ∧
          searchMatches toLower Q c = true) ∧
    (∀ k : KeyMsg, k.name ≠ lit "esc" → k.name ≠ lit "enter" →
      ∃ m1, handleSearchKey toLower m k = some (m1, []) ∧
        (m1.searchQuery ≠ m.searchQuery →
          ∀ z : Int, z ∈ m1.searchResults ↔
            m1.searchQuery ≠ [] ∧ ∃ (i : Nat) (c : Commit), z = (i : Int) ∧
              m.commits[i]? = some c ∧ searchMatches toLower m1.searchQuery c = true)) := by
  refine ⟨fun Q z => mem_runSearch_results toLower { m with searchQuery := Q } z, ?_⟩
  intro k hesc hent
  unfold handleSearchKey
  simp only [hesc, hent, if_false]
  by_cases hb : k.name = lit "backspace"
  · by_cases hq : m.searchQuery.length > 0
    · simp only [hb, hq, if_true]
      refine ⟨_, rfl, fun _ z => ?_⟩
      have h := mem_runSearch_results toLower { m with searchQuery := m.searchQuery.dropLast } z
      obtain ⟨_, _, _, _, _, _, _, _, h9⟩ :=
        runSearch_frame toLower { m with searchQuery := m.searchQuery.dropLast }
      rw [h9]
      exact h
    · simp only [hb, hq, if_true, if_false]
      exact ⟨m, rfl, fun h => absurd rfl h⟩
  · by_cases hr : k.Runes.length > 0
    · simp only [hb, hr, if_true, if_false]
      refine ⟨_, rfl, fun _ z => ?_⟩
      have h := mem_runSearch_results toLower
        { m with searchQuery := m.searchQuery ++ runesToString k.Runes } z
      obtain ⟨_, _, _, _, _, _, _, _, h9⟩ :=
        runSearch_frame toLower { m with searchQuery := m.searchQuery ++ runesToString k.Runes }
      rw [h9]
      exact h
    · simp only [hb, hr, if_false]
      exact ⟨m, rfl, fun h => absurd rfl h⟩

theorem run_cons_of_step (m m1 : Model) (msg : Msg) (rest : List Msg) (c1 : List Cmd)
    (h : Update toLower m msg = some (m1, c1)) :
    run toLower m (msg :: rest) =
      (run toLower m1 rest).bind (fun r2 => some (r2.1, c1 ++ r2.2)) := by
  simp [run, h]

theorem run_append_of_run (m m1 : Model) (a b : List Msg) (c1 : List Cmd)
    (h : run toLower m a = some (m1, c1)) :
    run toLower m (a ++ b) =
      (run toLower m1 b).bind (fun r2 => some (r2.1, c1 ++ r2.2)) := by
  induction a generalizing m c1 with
  | nil =>
    simp only [run, Option.some.injEq, Prod.mk.injEq] at h
    obtain ⟨rfl, rfl⟩ := h
    cases hb : run toLower m b <;> simp [hb]
  | cons x xs ih =>
    cases hx : Update toLower m x with
    | none => simp [run, hx] at h
    | some r =>
      obtain ⟨mx, cx⟩ := r
      cases hxs : run toLower mx xs with
      | none => simp [run, hx, hxs] at h
      | some r2 =>
        obtain ⟨m2, c2⟩ := r2
        simp only [run, hx, hxs, Option.bind_eq_bind, Option.some_bind, Option.pure_def,
          Option.some.injEq, Prod.mk.injEq] at h
        obtain ⟨rfl, rfl⟩ := h
        rw [List.cons_append, run_cons_of_step toLower m mx x (xs ++ b) cx hx, ih mx c2 hxs]
        cases hb : run toLower m2 b <;> simp

/-- A sequence of query edits (keys other than `esc` and `enter`) in search mode: the run
returns, emits nothing, stays in search mode and changes neither the cursor, the histories
nor the displayed change set. -/
theorem run_search_edits (edits : List KeyMsg) (m : Model)
    (hs : m.state = AppState.StateSearching)
    (hed : ∀ k ∈ edits, k.name ≠ lit "esc" ∧ k.name ≠ lit "enter") :
    ∃ m1, run toLower m (edits.map Msg.key) = some (m1, []) ∧
      m1.state = AppState.StateSearching ∧ m1.cursor = m.cursor ∧
      m1.filteredCommits = m.filteredCommits ∧ m1.commits = m.commits ∧
      m1.currentDiff = m.currentDiff := by
  induction edits generalizing m with
  | nil => exact ⟨m, rfl, hs, rfl, rfl, rfl, rfl⟩
  | cons k ks ih =>
    obtain ⟨hk1, hk2⟩ := hed k (List.mem_cons_self k ks)
    obtain ⟨mk, hstep, h1, h2, h3, h4, _, _, _, h8⟩ := handleSearchKey_not_enter toLower m k hk2
    have hsk : mk.state = AppState.StateSearching := by
      rcases h8 with h8 | ⟨h8, _⟩
      · exact h8.trans hs
      · exact absurd h8 hk1
    obtain ⟨m1, hrun, g0, g1, g2, g3, g4⟩ :=
      ih mk hsk (fun q hq => hed q (List.mem_cons_of_mem k hq))
    refine ⟨m1, ?_, g0, g1.trans h1, g2.trans h2, g3.trans h3, g4.trans h4⟩
    have hupd : Update toLower m (Msg.key k) = some (mk, []) :=
      (handleKey_searching toLower m k hs).trans hstep
    rw [List.map_cons, run_cons_of_step toLower m mk (Msg.key k) _ [] hupd, hrun]
    rfl

theorem handleKey_slash (m : Model) (k : KeyMsg)
    (hs : m.state ≠ AppState.StateSearching) (hf : m.state ≠ AppState.StateFiltering)
    (hk : k.name = lit "/") :
    handleKey toLower m k =
      some ({ m with playing := false, state := AppState.StateSearching, searchQuery := [],
                     searchResults := [] }, []) := by
  simp +decide [handleKey, hs, hf, hk, stopPlaying]

/-- C7: from a ready state, entering search (`/`) and editing the query by any sequence of
keys other than `esc` and `enter` returns with no command emitted and the engine in search
mode; leaving then by `esc`, or by `enter` when the result list is empty, returns, emits no
command, and yields ready mode with the cursor, the active view and the displayed change set
of the state before search was entered; after `esc` the query and the results are empty. -/
theorem leaving_search_restores (m : Model) (kslash : KeyMsg) (edits : List KeyMsg)
    (hm : m.state = AppState.StateReady) (hslash : kslash.name = lit "/")
    (hed : ∀ k ∈ edits, k.name ≠ lit "esc" ∧ k.name ≠ lit "enter") :
    ∃ ms, run toLower m (Msg.key kslash :: edits.map Msg.key) = some (ms, []) ∧
      ms.state = AppState.StateSearching ∧
      ∀ kend : KeyMsg,
        (kend.name = lit "esc" ∨ (kend.name = lit "enter" ∧ ms.searchResults = [])) →
        ∃ m2, run toLower m (Msg.key kslash :: edits.map Msg.key ++ [Msg.key kend]) =
            some (m2, []) ∧
          m2.state = AppState.StateReady ∧ m2.cursor = m.cursor ∧
          activeCommits m2 = activeCommits m ∧ m2.currentDiff = m.currentDiff ∧
          (kend.name = lit "esc" → m2.searchQuery = [] ∧ m2.searchResults = []) := by
  have hs : m.state ≠ AppState.StateSearching := by rw [hm]; decide
  have hf : m.state ≠ AppState.StateFiltering := by rw [hm]; decide
  have h0 : Update toLower m (Msg.key kslash) = some (_, []) :=
    handleKey_slash toLower m kslash hs hf hslash
  obtain ⟨ms, hrun, hss, hcur, hfc, hcs, hdiff⟩ := run_search_edits toLower edits
    { m with playing := false, state := AppState.StateSearching, searchQuery := [],
             searchResults := [] } rfl hed
  have hrun0 : run toLower m (Msg.key kslash :: edits.map Msg.key) = some (ms, []) := by
    rw [run_cons_of_step toLower m _ (Msg.key kslash) _ [] h0, hrun]
    rfl
  refine ⟨ms, hrun0, hss, ?_⟩
  intro kend hend
  have hfinal : ∃ m2, Update toLower ms (Msg.key kend) = some (m2, []) ∧
      m2.state = AppState.StateReady ∧ m2.cursor = ms.cursor ∧
      m2.filteredCommits = ms.filteredCommits ∧ m2.commits = ms.commits ∧
      m2.currentDiff = ms.currentDiff ∧
      (kend.name = lit "esc" → m2.searchQuery = [] ∧ m2.searchResults = []) := by
    show ∃ m2, handleKey toLower ms kend = some (m2, []) ∧ _
    rw [handleKey_searching toLower ms kend hss]
    rcases hend with hesc | ⟨hent, hres⟩
    · exact ⟨{ ms with state := AppState.StateReady, searchQuery := [], searchResults := [] },
        by simp only [handleSearchKey, hesc, if_true], rfl, rfl, rfl, rfl, rfl,
        fun _ => ⟨rfl, rfl⟩⟩
    · refine ⟨{ ms with state := AppState.StateReady }, ?_, rfl, rfl, rfl, rfl, rfl, ?_⟩
      · simp +decide [handleSearchKey, hent, hres]
      · intro h
        rw [hent] at h
        exact absurd h (by decide)
  obtain ⟨m2, hstep, g1, g2, g3, g4, g5, g6⟩ := hfinal
  refine ⟨m2, ?_, g1, g2.trans hcur, ?_, g5.trans hdiff, g6⟩
  · rw [run_append_of_run toLower m ms _ [Msg.key kend] [] hrun0,
      run_cons_of_step toLower ms m2 (Msg.key kend) [] [] hstep]
    rfl
  · exact (activeCommits_congr m2 ms g3 g4).trans (activeCommits_congr ms _ hfc hcs)

end EngineFacts

/-! ## Evaluations on the example history -/

theorem exampleModel_reached :
    run asciiToLower exampleNew [exampleLoad] =
      some (exampleModel, [Cmd.loadDiff (lit "/repo") c0.Hash]) := by
  decide

theorem exampleFiltering_reached :
    run asciiToLower exampleModel (keyRune 'f' :: typeText "alice") =
      some (exampleFiltering "alice", []) := by
  decide

theorem exampleSearching_reached :
    run asciiToLower exampleModel [keyRune '/'] = some (exampleSearching, []) := by
  decide

/-- C1 (the code breaks the invariant).  First run: the history is loaded, the author filter
`alice` is confirmed (active view `[c1, c3]`), then the search `docs` is confirmed: the
cursor is 3, the full-history position of `c3`, in an active view of length 2, no commit is
under the cursor and the fetch is issued for the empty hash.  Second run: `G` pressed while
the history is loading sets the cursor to -1; once the history is loaded the view has four
commits and the cursor is -1, and the completion of the first fetch panics. -/
theorem cursor_invariant_broken :
    (∃ m cmds,
      run asciiToLower exampleNew
          ([exampleLoad, keyRune 'f'] ++ typeText "alice" ++ [keyNamed "enter", keyRune '/'] ++
            typeText "docs" ++ [keyNamed "enter"]) = some (m, cmds) ∧
        activeCommits m = [c1, c3] ∧ m.cursor = 3 ∧ currentCommit m = some Commit.zero ∧
        cmds.getLast? = some (Cmd.loadDiff (lit "/repo") [])) ∧
    (∃ m cmds,
      run asciiToLower exampleNew [keyRune 'G', exampleLoad] = some (m, cmds) ∧
        activeCommits m = exampleHistory ∧ m.cursor = -1 ∧
        Update asciiToLower m (Msg.diffLoadedMsg c0.Hash none none) = none) := by
  refine ⟨⟨_, _, rfl, ?_, ?_, ?_, ?_⟩, ⟨_, _, rfl, ?_, ?_, ?_⟩⟩ <;> decide

/-- C2 (the code does not empty the view).  The author filter `carol` matches no commit of
the example history; confirming it leaves `filteredCommits` at `nil` although `filterAuthor`
is `carol`, so the active view is the whole history and a fetch is emitted for its first
commit. -/
theorem unmatched_filter_keeps_full_view :
    ∃ m,
      run asciiToLower exampleNew
          ([exampleLoad, keyRune 'f'] ++ typeText "carol" ++ [keyNamed "enter"]) =
        some (m, [Cmd.loadDiff (lit "/repo") c0.Hash, Cmd.loadDiff (lit "/repo") c0.Hash]) ∧
      exampleHistory.filter (authorOrEmailContainsFold asciiToLower (lit "carol")) = [] ∧
      m.filterAuthor = lit "carol" ∧ m.filteredCommits = none ∧
      activeCommits m = exampleHistory := by
  refine ⟨_, rfl, ?_, ?_, ?_, ?_⟩ <;> decide

/-- C6 (the code selects another commit when a filter is active).  With the author filter
`alice` active (view `[c1, c3]`) the search `add` has the results `[1, 3]`; confirming it
sets the cursor to 1, and the commit under the cursor is `c3`, not the full-history commit
`c1` at the smallest matching position; the fetch is emitted for the hash of `c3`. -/
theorem search_confirm_under_filter_selects_other_commit :
    ∃ ms m,
      run asciiToLower exampleNew
          ([exampleLoad, keyRune 'f'] ++ typeText "alice" ++ [keyNamed "enter", keyRune '/'] ++
            typeText "add") = some (ms, [Cmd.loadDiff (lit "/repo") c0.Hash,
              Cmd.loadDiff (lit "/repo") c1.Hash]) ∧
      ms.state = AppState.StateSearching ∧ ms.searchResults = [1, 3] ∧
      activeCommits ms = [c1, c3] ∧
      Update asciiToLower ms (keyNamed "enter") =
        some (m, [Cmd.loadDiff (lit "/repo") c3.Hash]) ∧
      m.state = AppState.StateReady ∧ m.cursor = 1 ∧ currentCommit m = some c3 ∧
      index m.commits 1 = some c1 ∧ c3 ≠ c1 := by
  refine ⟨_, _, rfl, ?_, ?_, ?_, rfl, ?_, ?_, ?_, ?_, ?_⟩ <;> decide

/-- C5 (the claim as stated fails).  The query `8293a4b` occurs in the full hash of `c0`
but in no short hash, subject or author name of the example history: the stated set
contains position 0, `runSearch` finds no position.  For the empty query the stated set is
every position, `runSearch` finds none.  An upper-case hash contains `abc`
case-insensitively, `runSearch` compares the short hash as stored and finds none. -/
theorem searchResults_not_as_stated :
    ¬ SearchResultsAsStated asciiToLower exampleSearching (lit "8293a4b") ∧
    ¬ SearchResultsAsStated asciiToLower exampleSearching [] ∧
    ¬ SearchResultsAsStated asciiToLower exampleUpperModel (lit "abc") := by
  refine ⟨fun h => ?_, fun h => ?_, fun h => ?_⟩
  · have h0 := (h 0).mpr ⟨0, c0, rfl, rfl, by decide⟩
    revert h0
    decide
  · have h0 := (h 0).mpr ⟨0, c0, rfl, rfl, by decide⟩
    revert h0
    decide
  · have h0 := (h 0).mpr ⟨0, _, rfl, rfl, by decide⟩
    revert h0
    decide

/-! ## The theorems at concrete inputs -/

/-- C3 at the scenario of the specification: the query `alice` matches `c1` and `c3`;
confirming gives the view `[c1, c3]` with the cursor on `c1` and a fetch for `c1`. -/
theorem confirm_filter_selects_matches_witness :
    ∃ m1, Update asciiToLower (exampleFiltering "alice") (keyNamed "enter") =
        some (m1, [Cmd.loadDiff (lit "/repo") c1.Hash]) ∧
      activeCommits m1 = [c1, c3] ∧ m1.cursor = 0 ∧ currentCommit m1 = some c1 ∧
      m1.state = AppState.StateReady := by
  obtain ⟨m1, d, rest, h1, h2, h3, h4, h5, h6, _⟩ :=
    confirm_filter_selects_matches asciiToLower (exampleFiltering "alice") (namedKey "enter")
      rfl (by decide) rfl ⟨c1, by decide, by decide⟩
  have hf : (exampleFiltering "alice").commits.filter
      (authorOrEmailContainsFold asciiToLower (exampleFiltering "alice").filterQuery) =
        [c1, c3] := by decide
  rw [hf] at h2
  rw [h2] at h3
  injection h3 with hd _
  subst hd
  exact ⟨m1, h1, h2, h4, h5, h6⟩

/-- C4 at the example model with the filter `alice` active and an empty query typed. -/
theorem confirm_empty_filter_clears_witness :
    ∃ m1 cmds,
      Update asciiToLower
          { exampleFiltering "" with filterAuthor := lit "alice",
                                     filteredCommits := some [c1, c3], cursor := 1 }
          (keyNamed "enter") = some (m1, cmds) ∧
        m1.filterAuthor = [] ∧ m1.filteredCommits = none ∧
        activeCommits m1 = exampleHistory ∧ m1.cursor = 0 ∧
        m1.state = AppState.StateReady :=
  confirm_empty_filter_clears asciiToLower
    { exampleFiltering "" with filterAuthor := lit "alice", filteredCommits := some [c1, c3],
                               cursor := 1 }
    (namedKey "enter") rfl rfl rfl

/-- C5 (amended) at the example history: the query `PARSER` selects the positions 1 and 2. -/
theorem searchResults_after_query_update_witness :
    (1 : Int) ∈ (runSearch asciiToLower
        { exampleSearching with searchQuery := lit "PARSER" }).searchResults ∧
    (2 : Int) ∈ (runSearch asciiToLower
        { exampleSearching with searchQuery := lit "PARSER" }).searchResults ∧
    (0 : Int) ∉ (runSearch asciiToLower
        { exampleSearching with searchQuery := lit "PARSER" }).searchResults :=
  ⟨((searchResults_after_query_update asciiToLower exampleSearching).1 (lit "PARSER") 1).mpr
      ⟨by decide, 1, c1, rfl, rfl, by decide⟩,
    ((searchResults_after_query_update asciiToLower exampleSearching).1 (lit "PARSER") 2).mpr
      ⟨by decide, 2, c2, rfl, rfl, by decide⟩,
    fun h => by
      obtain ⟨_, i, c, hi, hc, hm⟩ :=
        ((searchResults_after_query_update asciiToLower exampleSearching).1
          (lit "PARSER") 0).mp h
      have hi0 : i = 0 := by omega
      subst hi0
      have hc0 : c = c0 := by
        have : exampleSearching.commits[0]? = some c0 := rfl
        rw [this] at hc
        exact (Option.some.inj hc).symm
      subst hc0
      revert hm
      decide⟩

/-- C7 at the example model: `/`, `x`, backspace, then `esc`. -/
theorem leaving_search_restores_witness :
    ∃ m2, run asciiToLower exampleModel
        [keyRune '/', keyRune 'x', keyNamed "backspace", keyNamed "esc"] = some (m2, []) ∧
      m2.state = AppState.StateReady ∧ m2.cursor = exampleModel.cursor ∧
      activeCommits m2 = activeCommits exampleModel ∧
      m2.currentDiff = exampleModel.currentDiff ∧ m2.searchQuery = [] ∧
      m2.searchResults = [] := by
  obtain ⟨ms, _, _, hend⟩ :=
    leaving_search_restores asciiToLower exampleModel (runeKey '/')
      [runeKey 'x', namedKey "backspace"] rfl rfl (by decide)
  obtain ⟨m2, h1, h2, h3, h4, h5, h6⟩ := hend (namedKey "esc") (Or.inl rfl)
  exact ⟨m2, h1, h2, h3, h4, h5, (h6 rfl).1, (h6 rfl).2⟩

/-- C8 at the example model in search mode: the key `j` is a query edit. -/
theorem search_mode_is_modal_witness :
    ∃ m1, Update asciiToLower exampleSearching (keyRune 'j') = some (m1, []) ∧
      m1.cursor = exampleSearching.cursor ∧
      activeCommits m1 = activeCommits exampleSearching ∧
      m1.playing = exampleSearching.playing ∧ m1.speed = exampleSearching.speed ∧
      m1.speedIdx = exampleSearching.speedIdx ∧
      (m1.state = AppState.StateSearching ∨ m1.state = AppState.StateReady) :=
  search_mode_is_modal asciiToLower exampleSearching (runeKey 'j') rfl (by decide)

/-- C9 at the example model, cursor 0 of 4. -/
theorem stepForward_stepBackward_cursor_witness :
    ∃ m1 cmds1 m2 cmds2, stepForward exampleModel = some (m1, cmds1) ∧
      stepBackward m1 = some (m2, cmds2) ∧
      m1.cursor = exampleModel.cursor + 1 ∧ m2.cursor = exampleModel.cursor :=
  stepForward_stepBackward_cursor exampleModel (by decide) (by decide)

/-- C10 at the example model: `G` then `j`. -/
theorem jumpToLast_then_advance_witness :
    ∃ m1 cmds1 m2, Update asciiToLower exampleModel (keyRune 'G') = some (m1, cmds1) ∧
      m1.cursor = ((activeCommits exampleModel).length : Int) - 1 ∧
      activeCommits m1 = activeCommits exampleModel ∧
      Update asciiToLower m1 (keyRune 'j') = some (m2, []) ∧
      m2.cursor = m1.cursor ∧ activeCommits m2 = activeCommits exampleModel :=
  jumpToLast_then_advance asciiToLower exampleModel (runeKey 'G') (runeKey 'j')
    (by decide) (by decide) rfl (Or.inl rfl)

/-! ## Navigation, playback and speed -/

section Navigation

variable (toLower : GoString → GoString)

theorem Update_key (m : Model) (k : KeyMsg) :
    Update toLower m (Msg.key k) = handleKey toLower m k := rfl

theorem handleKey_k (m : Model) (k : KeyMsg)
    (hs : m.state ≠ AppState.StateSearching) (hf : m.state ≠ AppState.StateFiltering)
    (hk : k.name = lit "k" ∨ k.name = lit "up") :
    handleKey toLower m k = stepBackward m := by
  rcases hk with hk | hk <;> simp +decide [handleKey, hs, hf, hk]

theorem handleKey_g (m : Model) (k : KeyMsg) (c : Commit)
    (hs : m.state ≠ AppState.StateSearching) (hf : m.state ≠ AppState.StateFiltering)
    (hk : k.name = lit "g")
    (hc : currentCommit { m with cursor := 0, currentDiff := none, loadingDiff := true } =
      some c) :
    handleKey toLower m k =
      some ({ m with cursor := 0, currentDiff := none, loadingDiff := true },
        [Cmd.loadDiff m.root c.Hash]) := by
  simp +decide [handleKey, hs, hf, hk, hc, loadDiff]

theorem fetchHashes_forward (b : Bool) (root h : GoString) (s : ℚ) :
    fetchHashes (if b = true then [Cmd.loadDiff root h, playTick s]
      else [Cmd.loadDiff root h]) = [h] := by
  cases b <;> rfl

/-- C11: outside the input modes, with a valid cursor `p` in a non-empty active view, each
navigation that selects a commit (`j`/`down` when `p` is not the last position, `k`/`up`
when `p > 0`, `g`, `G`) returns, sets the cursor to the expected position (`p + 1`, `p - 1`,
`0`, `len - 1`), leaves the active view as it is, clears `currentDiff`, sets `loadingDiff`,
and emits exactly one change-set fetch, for the hash of the commit now under the cursor. -/
theorem navigation_selects_and_fetches (m : Model) (k : KeyMsg) (target : Int)
    (hs : m.state ≠ AppState.StateSearching) (hf : m.state ≠ AppState.StateFiltering)
    (h0 : 0 ≤ m.cursor) (h1 : m.cursor < (activeCommits m).length)
    (hk : ((k.name = lit "j" ∨ k.name = lit "down") ∧
            m.cursor < ((activeCommits m).length : Int) - 1 ∧ target = m.cursor + 1) ∨
          ((k.name = lit "k" ∨ k.name = lit "up") ∧ m.cursor > 0 ∧ target = m.cursor - 1) ∨
          (k.name = lit "g" ∧ target = 0) ∨
          (k.name = lit "G" ∧ target = ((activeCommits m).length : Int) - 1)) :
    ∃ m1 cmds c, Update toLower m (Msg.key k) = some (m1, cmds) ∧
      m1.cursor = target ∧ activeCommits m1 = activeCommits m ∧
      (activeCommits m)[target.toNat]? = some c ∧ currentCommit m1 = some c ∧
      m1.currentDiff = none ∧ m1.loadingDiff = true ∧ fetchHashes cmds = [c.Hash] := by
  have htarget : 0 ≤ target ∧ target < (activeCommits m).length := by
    rcases hk with ⟨_, h, rfl⟩ | ⟨_, h, rfl⟩ | ⟨_, rfl⟩ | ⟨_, rfl⟩ <;> omega
  obtain ⟨c, hc, hget⟩ := currentCommit_of_valid
    { m with cursor := target, currentDiff := none, loadingDiff := true } htarget.1 htarget.2
  rcases hk with ⟨hj, hlt, rfl⟩ | ⟨hkk, hpos, rfl⟩ | ⟨hg, rfl⟩ | ⟨hG, rfl⟩
  · exact ⟨_, _, c, (handleKey_j toLower m k hs hf hj).trans (stepForward_of_lt m c hlt hc),
      rfl, rfl, hget, hc, rfl, rfl, fetchHashes_forward _ _ _ _⟩
  · exact ⟨_, _, c, (handleKey_k toLower m k hs hf hkk).trans (stepBackward_of_pos m c hpos hc),
      rfl, rfl, hget, hc, rfl, rfl, rfl⟩
  · exact ⟨_, _, c, handleKey_g toLower m k c hs hf hg hc, rfl, rfl, hget, hc, rfl, rfl, rfl⟩
  · exact ⟨_, _, c, handleKey_G toLower m k c hs hf hG hc, rfl, rfl, hget, hc, rfl, rfl, rfl⟩

theorem handleKey_space (m : Model) (k : KeyMsg)
    (hs : m.state ≠ AppState.StateSearching) (hf : m.state ≠ AppState.StateFiltering)
    (hk : k.name = lit " ") :
    handleKey toLower m k =
      if m.playing = true then
        some ({ m with playing := false, state := AppState.StateReady }, [])
      else
        some ({ m with playing := true, state := AppState.StatePlaying }, [playTick m.speed]) := by
  cases hp : m.playing <;> simp +decide [handleKey, hs, hf, hk, hp]

/-- C12: in a ready state whose cursor is at the last position of the active view, `space`
followed by the first play tick stops playback: both transitions return, `space` emits no
fetch, the tick emits no command at all (no further tick, no fetch), and after the tick the
mode is ready, the playing flag is false and the cursor and the active view are unchanged. -/
theorem playback_at_end_stops_on_first_tick (m : Model) (k : KeyMsg)
    (hm : m.state = AppState.StateReady) (hk : k.name = lit " ")
    (hlast : m.cursor = ((activeCommits m).length : Int) - 1) :
    ∃ m1 cmds1 m2, Update toLower m (Msg.key k) = some (m1, cmds1) ∧
      fetchHashes cmds1 = [] ∧
      Update toLower m1 Msg.playTickMsg = some (m2, []) ∧
      m2.state = AppState.StateReady ∧ m2.playing = false ∧ m2.cursor = m.cursor ∧
      activeCommits m2 = activeCommits m := by
  have hs : m.state ≠ AppState.StateSearching := by rw [hm]; decide
  have hf : m.state ≠ AppState.StateFiltering := by rw [hm]; decide
  have hstep := handleKey_space toLower m k hs hf hk
  cases hp : m.playing with
  | true =>
    rw [hp, if_pos rfl] at hstep
    exact ⟨_, _, { m with playing := false, state := AppState.StateReady }, hstep, rfl, rfl,
      rfl, rfl, rfl, rfl⟩
  | false =>
    rw [hp, if_neg (by decide)] at hstep
    have hnot : ¬ m.cursor < ((activeCommits m).length : Int) - 1 := by omega
    have htick : Update toLower { m with playing := true, state := AppState.StatePlaying }
        Msg.playTickMsg =
          some ({ m with playing := false, state := AppState.StateReady }, []) :=
      stepForward_of_not_lt { m with playing := true, state := AppState.StatePlaying } hnot
    exact ⟨_, _, { m with playing := false, state := AppState.StateReady }, hstep, rfl, htick,
      rfl, rfl, rfl, rfl⟩

theorem handleKey_esc (m : Model) (k : KeyMsg) (c0 : Commit) (rest : List Commit)
    (hs : m.state ≠ AppState.StateSearching) (hf : m.state ≠ AppState.StateFiltering)
    (hk : k.name = lit "esc") (hc : m.commits = c0 :: rest) :
    handleKey toLower m k =
      some ({ m with playing := false, state := AppState.StateReady, filterAuthor := [],
                     filteredCommits := none, searchQuery := [], searchResults := [],
                     cursor := 0, currentDiff := none, loadingDiff := true },
        [Cmd.loadDiff m.root c0.Hash]) := by
  simp +decide [handleKey, hs, hf, hk, hc, stopPlaying, index, loadDiff]

/-- C15: outside the input modes and with a non-empty history, `esc` returns a state with no
filter (`filterAuthor` empty, `filteredCommits` nil, active view the full history), empty
`searchQuery` and `searchResults`, playing flag false, mode ready, cursor 0 on the first
commit, and emits exactly one command, the fetch for the hash of that first commit. -/
theorem resetToStart_clears (m : Model) (k : KeyMsg)
    (hs : m.state ≠ AppState.StateSearching) (hf : m.state ≠ AppState.StateFiltering)
    (hk : k.name = lit "esc") (hne : m.commits ≠ []) :
    ∃ m1 c0 rest, m.commits = c0 :: rest ∧
      Update toLower m (Msg.key k) = some (m1, [Cmd.loadDiff m.root c0.Hash]) ∧
      m1.filterAuthor = [] ∧ m1.filteredCommits = none ∧ activeCommits m1 = m.commits ∧
      m1.searchQuery = [] ∧ m1.searchResults = [] ∧ m1.playing = false ∧
      m1.state = AppState.StateReady ∧ m1.cursor = 0 ∧ currentCommit m1 = some c0 := by
  cases hc : m.commits with
  | nil => exact absurd hc hne
  | cons c0 rest =>
    exact ⟨_, c0, rest, rfl, handleKey_esc toLower m k c0 rest hs hf hk hc, rfl, rfl, hc, rfl,
      rfl, rfl, rfl, rfl, by simp [currentCommit, activeCommits, hc, index]⟩

/-- C16: a `diffLoadedMsg` that carries an error, or whose hash differs from the hash of the
commit under a valid cursor, returns, emits no command and leaves `currentDiff` as it was. -/
theorem stale_or_failed_completion_keeps_diff (m : Model) (hash : GoString)
    (stats : Option CommitStats) (err : Option GoString)
    (h : err ≠ none ∨
      (0 ≤ m.cursor ∧ m.cursor < (activeCommits m).length ∧
        ∀ c, (activeCommits m)[m.cursor.toNat]? = some c → hash ≠ c.Hash)) :
    ∃ m1, Update toLower m (Msg.diffLoadedMsg hash stats err) = some (m1, []) ∧
      m1.currentDiff = m.currentDiff := by
  by_cases he : err = none
  · rcases h with h | ⟨h0, h1, hne⟩
    · exact absurd he h
    · obtain ⟨c, hc, hget⟩ := currentCommit_of_valid { m with loadingDiff := false } h0 h1
      have hh : hash ≠ c.Hash := hne c hget
      exact ⟨{ m with loadingDiff := false }, by simp [Update, he, hc, hh], rfl⟩
  · exact ⟨{ m with loadingDiff := false }, by simp [Update, he], rfl⟩

end Navigation

/-! ## What every reachable state satisfies -/

section Invariant

variable (toLower : GoString → GoString)

theorem handleSearchKey_modes (m m1 : Model) (cmds : List Cmd) (k : KeyMsg)
    (h : handleSearchKey toLower m k = some (m1, cmds)) :
    m1.speedIdx = m.speedIdx ∧ m1.speed = m.speed ∧ m1.playing = m.playing ∧
      (m1.state = m.state ∨ m1.state = AppState.StateReady) := by
  obtain ⟨f1, _, _, _, f5, f6, f7, f8, _⟩ :=
    runSearch_frame toLower { m with searchQuery := m.searchQuery.dropLast }
  obtain ⟨g1, _, _, _, g5, g6, g7, g8, _⟩ :=
    runSearch_frame toLower { m with searchQuery := m.searchQuery ++ runesToString k.Runes }
  unfold handleSearchKey at h
  split_ifs at h <;>
    simp only [Option.bind_eq_bind, Option.bind_eq_some, Option.some.injEq, Prod.mk.injEq,
      Option.pure_def] at h
  all_goals first
    | (obtain ⟨rfl, _⟩ := h; simp_all)
    | (obtain ⟨_, _, _, _, rfl, _⟩ := h; simp)

theorem handleFilterKey_modes (m m1 : Model) (cmds : List Cmd) (k : KeyMsg)
    (h : handleFilterKey toLower m k = some (m1, cmds)) :
    m1.speedIdx = m.speedIdx ∧ m1.speed = m.speed ∧ m1.playing = m.playing ∧
      (m1.state = m.state ∨ m1.state = AppState.StateReady) := by
  by_cases hk : k.name = lit "enter"
  · rw [handleFilterKey_enter toLower m k hk] at h
    simp only [Option.some.injEq, Prod.mk.injEq] at h
    obtain ⟨rfl, _⟩ := h
    simp
  · unfold handleFilterKey at h
    simp only [hk, if_false] at h
    split_ifs at h <;> simp only [Option.some.injEq, Prod.mk.injEq] at h <;>
      (obtain ⟨rfl, _⟩ := h; simp)

theorem stepForward_modes (m m1 : Model) (cmds : List Cmd)
    (h : stepForward m = some (m1, cmds)) :
    m1.speedIdx = m.speedIdx ∧ m1.speed = m.speed ∧
      ((m1.state = m.state ∧ m1.playing = m.playing) ∨
        (m1.state = AppState.StateReady ∧ m1.playing = false)) := by
  by_cases hlt : m.cursor < ((activeCommits m).length : Int) - 1
  · cases hc : currentCommit { m with cursor := m.cursor + 1, currentDiff := none,
                                      loadingDiff := true } with
    | none => simp [stepForward, hlt, hc] at h
    | some c =>
      rw [stepForward_of_lt m c hlt hc] at h
      simp only [Option.some.injEq, Prod.mk.injEq] at h
      obtain ⟨rfl, _⟩ := h
      simp
  · rw [stepForward_of_not_lt m hlt] at h
    simp only [Option.some.injEq, Prod.mk.injEq] at h
    obtain ⟨rfl, _⟩ := h
    simp

theorem stepBackward_modes (m m1 : Model) (cmds : List Cmd)
    (h : stepBackward m = some (m1, cmds)) :
    m1.speedIdx = m.speedIdx ∧ m1.speed = m.speed ∧ m1.state = m.state ∧
      m1.playing = m.playing := by
  unfold stepBackward at h
  split_ifs at h <;>
    simp only [Option.bind_eq_bind, Option.bind_eq_some, Option.some.injEq, Prod.mk.injEq,
      Option.pure_def] at h
  · obtain ⟨_, _, rfl, _⟩ := h
    simp
  · obtain ⟨rfl, _⟩ := h
    simp

/-- The cases of the `switch` of `handleKey`, reached when the engine is in neither input
mode: a property of each of the thirteen outcomes is a property of `handleKey`. -/
theorem handleKey_normal_elim (m : Model) (k : KeyMsg)
    (hs : m.state ≠ AppState.StateSearching) (hf : m.state ≠ AppState.StateFiltering)
    (P : Option (Model × List Cmd) → Prop)
    (hquit : P (some (m, [Cmd.quit])))
    (hfwd : P (stepForward m))
    (hbwd : P (stepBackward m))
    (hfirst : P
      ((currentCommit { m with cursor := 0, currentDiff := none, loadingDiff := true }).bind
        (fun c => some ({ m with cursor := 0, currentDiff := none, loadingDiff := true },
          [Cmd.loadDiff m.root c.Hash]))))
    (hlast : P
      ((currentCommit { m with cursor := ((activeCommits m).length : Int) - 1,
                               currentDiff := none, loadingDiff := true }).bind
        (fun c => some ({ m with cursor := ((activeCommits m).length : Int) - 1,
                                 currentDiff := none, loadingDiff := true },
          [Cmd.loadDiff m.root c.Hash]))))
    (hspace : P (if m.playing = true then
        some ({ m with playing := false, state := AppState.StateReady }, [])
      else some ({ m with playing := true, state := AppState.StatePlaying },
        [playTick m.speed])))
    (hplus : P (if m.speedIdx < 4 then
        (index speedPresets (m.speedIdx + 1)).bind (fun s =>
          some ({ m with speedIdx := m.speedIdx + 1, speed := s }, []))
      else some (m, [])))
    (hminus : P (if m.speedIdx > 0 then
        (index speedPresets (m.speedIdx - 1)).bind (fun s =>
          some ({ m with speedIdx := m.speedIdx - 1, speed := s }, []))
      else some (m, [])))
    (htab : P (some ({ m with activePane :=
        (if m.activePane = ActivePane.PaneFiles then ActivePane.PaneDetail
          else ActivePane.PaneFiles) }, [])))
    (hsearch : P (some ({ m with playing := false, state := AppState.StateSearching,
                                 searchQuery := [], searchResults := [] }, [])))
    (hfilter : P (some ({ m with playing := false, state := AppState.StateFiltering,
                                 filterQuery := [] }, [])))
    (hesc : P (some ({ m with playing := false, state := AppState.StateReady,
                              filterAuthor := [], filteredCommits := none, searchQuery := [],
                              searchResults := [], cursor := 0, currentDiff := none,
                              loadingDiff := true },
        match m.commits with
        | [] => []
        | c :: _ => [Cmd.loadDiff m.root c.Hash])))
    (hother : P (some (m, []))) :
    P (handleKey toLower m k) := by
  by_cases h1 : k.name = lit "q" ∨ k.name = lit "ctrl+c"
  · have e : handleKey toLower m k = some (m, [Cmd.quit]) := by
      rcases h1 with h1 | h1 <;> simp +decide [handleKey, hs, hf, h1]
    rw [e]; exact hquit
  by_cases h2 : k.name = lit "j" ∨ k.name = lit "down"
  · rw [handleKey_j toLower m k hs hf h2]; exact hfwd
  by_cases h3 : k.name = lit "k" ∨ k.name = lit "up"
  · rw [handleKey_k toLower m k hs hf h3]; exact hbwd
  by_cases h4 : k.name = lit "g"
  · convert hfirst using 1
    simp +decide [handleKey, hs, hf, h4, loadDiff]
  by_cases h5 : k.name = lit "G"
  · convert hlast using 1
    simp +decide [handleKey, hs, hf, h5, loadDiff]
  by_cases h6 : k.name = lit " "
  · convert hspace using 1
    exact handleKey_space toLower m k hs hf h6
  by_cases h7 : k.name = lit "+" ∨ k.name = lit "="
  · convert hplus using 1
    rcases h7 with h7 | h7 <;>
      by_cases hi : m.speedIdx < 4 <;>
        simp +decide [handleKey, hs, hf, h7, hi, speedPresets]
  by_cases h8 : k.name = lit "-"
  · convert hminus using 1
    by_cases hi : m.speedIdx > 0 <;>
      simp +decide [handleKey, hs, hf, h8, hi]
  by_cases h9 : k.name = lit "tab"
  · convert htab using 1
    by_cases hp : m.activePane = ActivePane.PaneFiles <;>
      simp +decide [handleKey, hs, hf, h9, hp]
  by_cases h10 : k.name = lit "/"
  · convert hsearch using 1
    exact handleKey_slash toLower m k hs hf h10
  by_cases h11 : k.name = lit "f"
  · convert hfilter using 1
    simp +decide [handleKey, hs, hf, h11, stopPlaying]
  by_cases h12 : k.name = lit "esc"
  · convert hesc using 1
    cases hc : m.commits <;>
      simp +decide [handleKey, hs, hf, h12, hc, stopPlaying, index, loadDiff]
  · convert hother using 1
    simp only [not_or] at h1 h2 h3 h7
    simp [handleKey, hs, hf, h1, h2, h3, h4, h5, h6, h7, h8, h9, h10, h11, h12]

theorem EngineInv_of_same (m m1 : Model) (hinv : EngineInv m)
    (e1 : m1.speedIdx = m.speedIdx) (e2 : m1.speed = m.speed)
    (e3 : (m1.state = m.state ∧ m1.playing = m.playing) ∨ m1.state = AppState.StateReady ∨
      (m1.state = AppState.StatePlaying ∧ m1.playing = true) ∨
      ((m1.state = AppState.StateSearching ∨ m1.state = AppState.StateFiltering) ∧
        m1.playing = false)) :
    EngineInv m1 := by
  obtain ⟨i0, i4, ispeed, iinput, iplay⟩ := hinv
  refine ⟨by omega, by omega, by rw [e1, e2]; exact ispeed, ?_, ?_⟩
  · intro hin
    rcases e3 with ⟨e, ep⟩ | e | ⟨e, _⟩ | ⟨_, ep⟩
    · rw [ep]; rw [e] at hin; exact iinput hin
    · rw [e] at hin; rcases hin with hin | hin <;> exact absurd hin (by decide)
    · rw [e] at hin; rcases hin with hin | hin <;> exact absurd hin (by decide)
    · exact ep
  · intro hp
    rcases e3 with ⟨e, ep⟩ | e | ⟨_, ep⟩ | ⟨e, _⟩
    · rw [ep]; rw [e] at hp; exact iplay hp
    · rw [e] at hp; exact absurd hp (by decide)
    · exact ep
    · rcases e with e | e <;> rw [e] at hp <;> exact absurd hp (by decide)

theorem EngineInv_handleKey (m m1 : Model) (cmds : List Cmd) (k : KeyMsg)
    (hinv : EngineInv m) (h : handleKey toLower m k = some (m1, cmds)) : EngineInv m1 := by
  by_cases hs : m.state = AppState.StateSearching
  · rw [handleKey_searching toLower m k hs] at h
    obtain ⟨e1, e2, e3, e4⟩ := handleSearchKey_modes toLower m m1 cmds k h
    exact EngineInv_of_same m m1 hinv e1 e2
      (e4.elim (fun e => Or.inl ⟨e, e3⟩) (fun e => Or.inr (Or.inl e)))
  by_cases hf : m.state = AppState.StateFiltering
  · rw [handleKey_filtering toLower m k hf] at h
    obtain ⟨e1, e2, e3, e4⟩ := handleFilterKey_modes toLower m m1 cmds k h
    exact EngineInv_of_same m m1 hinv e1 e2
      (e4.elim (fun e => Or.inl ⟨e, e3⟩) (fun e => Or.inr (Or.inl e)))
  revert h
  revert m1 cmds
  apply handleKey_normal_elim toLower m k hs hf
    (fun r => ∀ (m1 : Model) (cmds : List Cmd), r = some (m1, cmds) → EngineInv m1)
  · intro m1 cmds h
    simp only [Option.some.injEq, Prod.mk.injEq] at h
    obtain ⟨rfl, _⟩ := h
    exact hinv
  · intro m1 cmds h
    obtain ⟨e1, e2, e3⟩ := stepForward_modes m m1 cmds h
    exact EngineInv_of_same m m1 hinv e1 e2
      (e3.elim Or.inl (fun e => Or.inr (Or.inl e.1)))
  · intro m1 cmds h
    obtain ⟨e1, e2, e3, e4⟩ := stepBackward_modes m m1 cmds h
    exact EngineInv_of_same m m1 hinv e1 e2 (Or.inl ⟨e3, e4⟩)
  · intro m1 cmds h
    simp only [Option.bind_eq_some, Option.some.injEq, Prod.mk.injEq] at h
    obtain ⟨_, _, rfl, _⟩ := h
    exact EngineInv_of_same m _ hinv rfl rfl (Or.inl ⟨rfl, rfl⟩)
  · intro m1 cmds h
    simp only [Option.bind_eq_some, Option.some.injEq, Prod.mk.injEq] at h
    obtain ⟨_, _, rfl, _⟩ := h
    exact EngineInv_of_same m _ hinv rfl rfl (Or.inl ⟨rfl, rfl⟩)
  · intro m1 cmds h
    split_ifs at h <;> simp only [Option.some.injEq, Prod.mk.injEq] at h <;>
      obtain ⟨rfl, _⟩ := h
    · exact EngineInv_of_same m _ hinv rfl rfl (Or.inr (Or.inl rfl))
    · exact EngineInv_of_same m _ hinv rfl rfl (Or.inr (Or.inr (Or.inl ⟨rfl, rfl⟩)))
  · intro m1 cmds h
    obtain ⟨i0, i4, ispeed, iinput, iplay⟩ := hinv
    split_ifs at h with hi <;>
      simp only [Option.bind_eq_some, Option.some.injEq, Prod.mk.injEq] at h
    · obtain ⟨s, hsp, rfl, _⟩ := h
      exact ⟨by show 0 ≤ m.speedIdx + 1; omega, by show m.speedIdx + 1 ≤ 4; omega, hsp,
        iinput, iplay⟩
    · obtain ⟨rfl, _⟩ := h
      exact ⟨i0, i4, ispeed, iinput, iplay⟩
  · intro m1 cmds h
    obtain ⟨i0, i4, ispeed, iinput, iplay⟩ := hinv
    split_ifs at h with hi <;>
      simp only [Option.bind_eq_some, Option.some.injEq, Prod.mk.injEq] at h
    · obtain ⟨s, hsp, rfl, _⟩ := h
      exact ⟨by show 0 ≤ m.speedIdx - 1; omega, by show m.speedIdx - 1 ≤ 4; omega, hsp,
        iinput, iplay⟩
    · obtain ⟨rfl, _⟩ := h
      exact ⟨i0, i4, ispeed, iinput, iplay⟩
  · intro m1 cmds h
    simp only [Option.some.injEq, Prod.mk.injEq] at h
    obtain ⟨rfl, _⟩ := h
    exact EngineInv_of_same m _ hinv rfl rfl (Or.inl ⟨rfl, rfl⟩)
  · intro m1 cmds h
    simp only [Option.some.injEq, Prod.mk.injEq] at h
    obtain ⟨rfl, _⟩ := h
    exact EngineInv_of_same m _ hinv rfl rfl (Or.inr (Or.inr (Or.inr ⟨Or.inl rfl, rfl⟩)))
  · intro m1 cmds h
    simp only [Option.some.injEq, Prod.mk.injEq] at h
    obtain ⟨rfl, _⟩ := h
    exact EngineInv_of_same m _ hinv rfl rfl (Or.inr (Or.inr (Or.inr ⟨Or.inr rfl, rfl⟩)))
  · intro m1 cmds h
    simp only [Option.some.injEq, Prod.mk.injEq] at h
    obtain ⟨rfl, _⟩ := h
    exact EngineInv_of_same m _ hinv rfl rfl (Or.inr (Or.inl rfl))
  · intro m1 cmds h
    simp only [Option.some.injEq, Prod.mk.injEq] at h
    obtain ⟨rfl, _⟩ := h
    exact hinv

theorem EngineInv_Update (m m1 : Model) (cmds : List Cmd) (msg : Msg)
    (hinv : EngineInv m) (h : Update toLower m msg = some (m1, cmds)) : EngineInv m1 := by
  cases msg with
  | windowSize w ht =>
    simp only [Update, Option.some.injEq, Prod.mk.injEq] at h
    obtain ⟨rfl, _⟩ := h
    exact EngineInv_of_same m _ hinv rfl rfl (Or.inl ⟨rfl, rfl⟩)
  | spinnerTickMsg =>
    simp only [Update] at h
    split_ifs at h <;> simp only [Option.some.injEq, Prod.mk.injEq] at h <;>
      (obtain ⟨rfl, _⟩ := h; exact EngineInv_of_same m _ hinv rfl rfl (Or.inl ⟨rfl, rfl⟩))
  | loadDoneMsg commits registry err =>
    by_cases he : err ≠ none
    · simp only [Update] at h
      rw [if_pos he] at h
      simp only [Option.some.injEq, Prod.mk.injEq] at h
      obtain ⟨rfl, _⟩ := h
      exact EngineInv_of_same m _ hinv rfl rfl (Or.inr (Or.inl rfl))
    · cases hc : commits with
      | nil =>
        simp [Update, he, hc] at h
        obtain ⟨rfl, _⟩ := h
        exact EngineInv_of_same m _ hinv rfl rfl (Or.inr (Or.inl rfl))
      | cons c0 rest =>
        simp [Update, he, hc, index] at h
        obtain ⟨rfl, _⟩ := h
        exact EngineInv_of_same m _ hinv rfl rfl (Or.inr (Or.inl rfl))
  | diffLoadedMsg hash stats err =>
    simp only [Update] at h
    split_ifs at h <;>
      simp only [Option.bind_eq_bind, Option.bind_eq_some, Option.some.injEq, Prod.mk.injEq,
        Option.pure_def] at h
    · obtain ⟨c, _, h⟩ := h
      split_ifs at h <;> simp only [Option.some.injEq, Prod.mk.injEq] at h <;>
        (obtain ⟨rfl, _⟩ := h; exact EngineInv_of_same m _ hinv rfl rfl (Or.inl ⟨rfl, rfl⟩))
    · obtain ⟨rfl, _⟩ := h
      exact EngineInv_of_same m _ hinv rfl rfl (Or.inl ⟨rfl, rfl⟩)
  | playTickMsg =>
    simp only [Update] at h
    split_ifs at h
    · obtain ⟨e1, e2, e3⟩ := stepForward_modes m m1 cmds h
      exact EngineInv_of_same m m1 hinv e1 e2 (e3.elim Or.inl (fun e => Or.inr (Or.inl e.1)))
    · simp only [Option.some.injEq, Prod.mk.injEq] at h
      obtain ⟨rfl, _⟩ := h
      exact hinv
  | key k => exact EngineInv_handleKey toLower m m1 cmds k hinv h
  | other =>
    simp only [Update, Option.some.injEq, Prod.mk.injEq] at h
    obtain ⟨rfl, _⟩ := h
    exact hinv

theorem EngineInv_run (msgs : List Msg) (m m1 : Model) (cmds : List Cmd)
    (hinv : EngineInv m) (h : run toLower m msgs = some (m1, cmds)) : EngineInv m1 := by
  induction msgs generalizing m cmds with
  | nil =>
    simp only [run, Option.some.injEq, Prod.mk.injEq] at h
    obtain ⟨rfl, _⟩ := h
    exact hinv
  | cons msg rest ih =>
    cases hx : Update toLower m msg with
    | none => simp [run, hx] at h
    | some r =>
      obtain ⟨mx, cx⟩ := r
      cases hxs : run toLower mx rest with
      | none => simp [run, hx, hxs] at h
      | some r2 =>
        obtain ⟨m2, c2⟩ := r2
        simp only [run, hx, hxs, Option.bind_eq_bind, Option.some_bind, Option.pure_def,
          Option.some.injEq, Prod.mk.injEq] at h
        obtain ⟨rfl, _⟩ := h
        exact ih mx c2 (EngineInv_Update toLower m mx cx msg hinv hx) hxs

theorem EngineInv_New (root branch : GoString) (maxCount : Int) :
    EngineInv (New root branch maxCount) := by
  refine ⟨?_, ?_, rfl, ?_, ?_⟩
  · show (0 : Int) ≤ 2
    decide
  · show (2 : Int) ≤ 4
    decide
  · intro _
    rfl
  · intro h
    have hl : (New root branch maxCount).state = AppState.StateLoading := rfl
    rw [hl] at h
    exact absurd h (by decide)

theorem EngineInv_of_Reachable (m : Model) (h : Reachable toLower m) : EngineInv m := by
  obtain ⟨root, branch, maxCount, msgs, cmds, hrun⟩ := h
  exact EngineInv_run toLower msgs _ m cmds (EngineInv_New root branch maxCount) hrun

end Invariant

section ReachableFacts

variable (toLower : GoString → GoString)

theorem playTick_presets :
    playTick (1/4) = Cmd.playTick 3200000000 ∧ playTick (1/2) = Cmd.playTick 1600000000 ∧
    playTick 1 = Cmd.playTick 800000000 ∧ playTick 2 = Cmd.playTick 400000000 ∧
    playTick 4 = Cmd.playTick 200000000 := by
  refine ⟨?_, ?_, ?_, ?_, ?_⟩ <;> simp [playTick, defaultInterval] <;> norm_num

theorem speed_of_EngineInv (m : Model) (hinv : EngineInv m) :
    (m.speedIdx = 0 ∧ m.speed = 1/4) ∨ (m.speedIdx = 1 ∧ m.speed = 1/2) ∨
    (m.speedIdx = 2 ∧ m.speed = 1) ∨ (m.speedIdx = 3 ∧ m.speed = 2) ∨
    (m.speedIdx = 4 ∧ m.speed = 4) := by
  obtain ⟨i0, i4, ispeed, _, _⟩ := hinv
  have hcases : m.speedIdx = 0 ∨ m.speedIdx = 1 ∨ m.speedIdx = 2 ∨ m.speedIdx = 3 ∨
      m.speedIdx = 4 := by omega
  rcases hcases with h | h | h | h | h <;> rw [h] at ispeed <;>
    simp [index, speedPresets] at ispeed <;> simp [h, ← ispeed]

/-- C18: in every reachable state the playing flag is false while the state is
`StateSearching` or `StateFiltering` (the state holds one value, so at most one of playing,
searching, filtering holds). -/
theorem playing_excludes_input_modes (m : Model) (hr : Reachable toLower m)
    (hin : m.state = AppState.StateSearching ∨ m.state = AppState.StateFiltering) :
    m.playing = false :=
  (EngineInv_of_Reachable toLower m hr).2.2.2.1 hin

theorem handleKey_plus (m : Model) (k : KeyMsg)
    (hs : m.state ≠ AppState.StateSearching) (hf : m.state ≠ AppState.StateFiltering)
    (hk : k.name = lit "+" ∨ k.name = lit "=") :
    handleKey toLower m k =
      if m.speedIdx < 4 then
        (index speedPresets (m.speedIdx + 1)).bind (fun s =>
          some ({ m with speedIdx := m.speedIdx + 1, speed := s }, []))
      else some (m, []) := by
  rcases hk with hk | hk <;> by_cases hi : m.speedIdx < 4 <;>
    simp +decide [handleKey, hs, hf, hk, hi, speedPresets]

theorem handleKey_minus (m : Model) (k : KeyMsg)
    (hs : m.state ≠ AppState.StateSearching) (hf : m.state ≠ AppState.StateFiltering)
    (hk : k.name = lit "-") :
    handleKey toLower m k =
      if m.speedIdx > 0 then
        (index speedPresets (m.speedIdx - 1)).bind (fun s =>
          some ({ m with speedIdx := m.speedIdx - 1, speed := s }, []))
      else some (m, []) := by
  by_cases hi : m.speedIdx > 0 <;> simp +decide [handleKey, hs, hf, hk, hi]

theorem index_speedPresets_total (i : Int) (h0 : 0 ≤ i) (h4 : i ≤ 4) :
    ∃ s, index speedPresets i = some s := by
  obtain ⟨s, hs, _⟩ := index_of_valid speedPresets i h0 (by simp [speedPresets]; omega)
  exact ⟨s, hs⟩

/-- C14: in every reachable state `0 ≤ speedIdx ≤ 4` and `speed = speedPresets[speedIdx]`;
outside the input modes `+`/`=` returns the state with `speedIdx` changed to
`min (speedIdx + 1) 4` and `-` the state with `speedIdx` changed to `max (speedIdx - 1) 0`,
`speed` the preset at the new index, every other field as it was, and no command emitted. -/
theorem setSpeed_clamped (m : Model) (hr : Reachable toLower m) :
    (0 ≤ m.speedIdx ∧ m.speedIdx ≤ 4 ∧ index speedPresets m.speedIdx = some m.speed) ∧
    ∀ k : KeyMsg, m.state ≠ AppState.StateSearching → m.state ≠ AppState.StateFiltering →
      ((k.name = lit "+" ∨ k.name = lit "=") →
        ∃ s, index speedPresets (min (m.speedIdx + 1) 4) = some s ∧
          Update toLower m (Msg.key k) =
            some ({ m with speedIdx := min (m.speedIdx + 1) 4, speed := s }, [])) ∧
      (k.name = lit "-" →
        ∃ s, index speedPresets (max (m.speedIdx - 1) 0) = some s ∧
          Update toLower m (Msg.key k) =
            some ({ m with speedIdx := max (m.speedIdx - 1) 0, speed := s }, [])) := by
  obtain ⟨i0, i4, ispeed, _, _⟩ := EngineInv_of_Reachable toLower m hr
  refine ⟨⟨i0, i4, ispeed⟩, fun k hs hf => ⟨fun hk => ?_, fun hk => ?_⟩⟩
  · show ∃ s, _ ∧ handleKey toLower m k = _
    rw [handleKey_plus toLower m k hs hf hk]
    by_cases hi : m.speedIdx < 4
    · have hmin : min (m.speedIdx + 1) 4 = m.speedIdx + 1 := by omega
      obtain ⟨s, hsp⟩ := index_speedPresets_total (m.speedIdx + 1) (by omega) (by omega)
      rw [hmin, if_pos hi, hsp]
      exact ⟨s, rfl, rfl⟩
    · have hmin : min (m.speedIdx + 1) 4 = m.speedIdx := by omega
      rw [hmin, if_neg hi]
      exact ⟨m.speed, ispeed, rfl⟩
  · show ∃ s, _ ∧ handleKey toLower m k = _
    rw [handleKey_minus toLower m k hs hf hk]
    by_cases hi : m.speedIdx > 0
    · have hmax : max (m.speedIdx - 1) 0 = m.speedIdx - 1 := by omega
      obtain ⟨s, hsp⟩ := index_speedPresets_total (m.speedIdx - 1) (by omega) (by omega)
      rw [hmax, if_pos hi, hsp]
      exact ⟨s, rfl, rfl⟩
    · have hmax : max (m.speedIdx - 1) 0 = m.speedIdx := by omega
      rw [hmax, if_neg hi]
      exact ⟨m.speed, ispeed, rfl⟩

/-- C13: in a reachable state in `StatePlaying` whose cursor `p` is a position of the active
view other than the last, a play tick returns, moves the cursor to `p + 1`, keeps the mode
playing, and emits exactly the fetch for the commit now under the cursor and one new tick
`playTick(speed)`; entering playing mode with `space` emits the same `playTick(speed)`; and
the delay of `playTick(speed)` is 800 ms divided by the speed, i.e. 3200, 1600, 800, 400,
200 ms for the presets 0.25, 0.5, 1, 2, 4, of which the current speed is one. -/
theorem play_tick_advances_and_reschedules (m : Model) (hr : Reachable toLower m) :
    (m.state = AppState.StatePlaying → 0 ≤ m.cursor →
      m.cursor < ((activeCommits m).length : Int) - 1 →
      ∃ m1 c, Update toLower m Msg.playTickMsg =
          some (m1, [Cmd.loadDiff m.root c.Hash, playTick m.speed]) ∧
        m1.cursor = m.cursor + 1 ∧ m1.state = AppState.StatePlaying ∧ m1.playing = true ∧
        activeCommits m1 = activeCommits m ∧
        (activeCommits m)[(m.cursor + 1).toNat]? = some c ∧ currentCommit m1 = some c) ∧
    (∀ k : KeyMsg, k.name = lit " " → m.state ≠ AppState.StateSearching →
      m.state ≠ AppState.StateFiltering → m.playing = false →
      Update toLower m (Msg.key k) =
        some ({ m with playing := true, state := AppState.StatePlaying },
          [playTick m.speed])) ∧
    (∃ d : Int, playTick m.speed = Cmd.playTick d ∧
      (m.speed, d) ∈ [((1/4 : ℚ), (3200000000 : Int)), (1/2, 1600000000), (1, 800000000),
        (2, 400000000), (4, 200000000)]) := by
  have hinv := EngineInv_of_Reachable toLower m hr
  refine ⟨fun hst h0 hlt => ?_, fun k hk hs hf hp => ?_, ?_⟩
  · have hp : m.playing = true := hinv.2.2.2.2 hst
    obtain ⟨c, hc, hget⟩ := currentCommit_of_valid
      { m with cursor := m.cursor + 1, currentDiff := none, loadingDiff := true }
      (show 0 ≤ m.cursor + 1 by omega) (show m.cursor + 1 < (activeCommits m).length by omega)
    have hstep := stepForward_of_lt m c hlt hc
    rw [hp, if_pos rfl] at hstep
    have hupd : Update toLower m Msg.playTickMsg = stepForward m := by
      simp [Update, hp]
    exact ⟨_, c, hupd.trans hstep, rfl, hst, rfl, rfl, hget, hc⟩
  · have hstep := handleKey_space toLower m k hs hf hk
    rw [hp, if_neg (by decide)] at hstep
    exact hstep
  · obtain ⟨p1, p2, p3, p4, p5⟩ := playTick_presets
    rcases speed_of_EngineInv m hinv with ⟨_, h⟩ | ⟨_, h⟩ | ⟨_, h⟩ | ⟨_, h⟩ | ⟨_, h⟩ <;> rw [h]
    · exact ⟨_, p1, by simp⟩
    · exact ⟨_, p2, by simp⟩
    · exact ⟨_, p3, by simp⟩
    · exact ⟨_, p4, by simp⟩
    · exact ⟨_, p5, by simp⟩

end ReachableFacts

/-! ## Evaluations: stale completions, input modes while loading, pending ticks -/

theorem fiveAtLast_reached :
    run asciiToLower exampleNew [Msg.loadDoneMsg fiveHistory none none, keyRune 'G'] =
      some (fiveAtLast, [Cmd.loadDiff (lit "/repo") c0.Hash,
        Cmd.loadDiff (lit "/repo") c4.Hash]) := by
  decide

theorem exampleAtSecond_reached :
    run asciiToLower exampleNew [exampleLoad, keyRune 'j'] =
      some (exampleAtSecond, [Cmd.loadDiff (lit "/repo") c0.Hash,
        Cmd.loadDiff (lit "/repo") c1.Hash]) := by
  decide

theorem exampleFiltered_reached :
    run asciiToLower exampleNew
      ([exampleLoad, keyRune 'f'] ++ typeText "alice" ++ [keyNamed "enter", keyRune 'j']) =
        some (exampleFiltered, [Cmd.loadDiff (lit "/repo") c0.Hash,
          Cmd.loadDiff (lit "/repo") c1.Hash, Cmd.loadDiff (lit "/repo") c3.Hash]) := by
  decide

theorem examplePlaying_reached :
    run asciiToLower exampleNew [exampleLoad, keyRune ' '] =
      some (examplePlaying, [Cmd.loadDiff (lit "/repo") c0.Hash,
        playTick examplePlaying.speed]) :=
  rfl

/-- C17 (the code changes the state on a stale completion).  After the history is loaded and
`j` is pressed the cursor is on `c1` and the fetch for `c1` is pending (`loadingDiff` is
true).  The completion of the earlier fetch, for `c0`, is stale: its hash is not the hash of
`c1`.  The transition keeps `currentDiff` but sets `loadingDiff` to false, so the state
after it differs from the state before. -/
theorem stale_completion_clears_loading_flag :
    ∃ m1,
      run asciiToLower exampleNew [exampleLoad, keyRune 'j'] =
        some (exampleAtSecond, [Cmd.loadDiff (lit "/repo") c0.Hash,
          Cmd.loadDiff (lit "/repo") c1.Hash]) ∧
      currentCommit exampleAtSecond = some c1 ∧ c0.Hash ≠ c1.Hash ∧
      exampleAtSecond.loadingDiff = true ∧
      Update asciiToLower exampleAtSecond
        (Msg.diffLoadedMsg c0.Hash (some exampleStats) none) = some (m1, []) ∧
      m1.currentDiff = none ∧ m1.loadingDiff = false ∧ m1 ≠ exampleAtSecond := by
  refine ⟨{ exampleAtSecond with loadingDiff := false }, ?_, ?_, ?_, ?_, ?_, ?_, ?_, ?_⟩ <;>
    decide

/-- C19 (the code enters the input modes from `StateLoading`).  In the initial state, while
the history is loading, `/` enters `StateSearching` and `f` enters `StateFiltering`. -/
theorem input_modes_entered_from_loading :
    exampleNew.state = AppState.StateLoading ∧
    (∃ m, Update asciiToLower exampleNew (keyRune '/') = some (m, []) ∧
      m.state = AppState.StateSearching) ∧
    (∃ m, Update asciiToLower exampleNew (keyRune 'f') = some (m, []) ∧
      m.state = AppState.StateFiltering) := by
  refine ⟨rfl, ⟨_, rfl, ?_⟩, ⟨_, rfl, ?_⟩⟩ <;> decide

/-- C20 (the code lets two ticks be pending).  From the loaded example model with no pending
tick: `space` schedules a tick and `j`, pressed before that tick is delivered, advances
through `stepForward`, which schedules another one because the playing flag is set; and
`space` three times (play, pause, play) schedules a second tick while the first is still
pending. -/
theorem two_pending_ticks :
    (∃ c, runConfig asciiToLower { model := exampleModel, pendingTicks := 0 }
        [Event.key (runeKey ' '), Event.key (runeKey 'j')] = some c ∧
      c.pendingTicks = 2) ∧
    (∃ c, runConfig asciiToLower { model := exampleModel, pendingTicks := 0 }
        [Event.key (runeKey ' '), Event.key (runeKey ' '), Event.key (runeKey ' ')] =
          some c ∧
      c.pendingTicks = 2 ∧ c.model.playing = true) := by
  refine ⟨⟨_, rfl, ?_⟩, ⟨_, rfl, ?_, ?_⟩⟩ <;> decide

/-! ## The theorems of navigation, playback and speed at concrete inputs -/

theorem exampleModel_reachable : Reachable asciiToLower exampleModel :=
  ⟨lit "/repo", lit "main", 0, [exampleLoad], _, exampleModel_reached⟩

theorem examplePlaying_reachable : Reachable asciiToLower examplePlaying :=
  ⟨lit "/repo", lit "main", 0, [exampleLoad, keyRune ' '], _, examplePlaying_reached⟩

theorem exampleSearching_after_play_reachable : Reachable asciiToLower exampleSearching :=
  ⟨lit "/repo", lit "main", 0, [exampleLoad, keyRune ' ', keyRune '/'],
    [Cmd.loadDiff (lit "/repo") c0.Hash, playTick examplePlaying.speed], rfl⟩

/-- C11 at the example model with the filter `alice` active, cursor on `c3` (position 1 of
the view `[c1, c3]`): `k` selects `c1` and fetches it. -/
theorem navigation_selects_and_fetches_witness :
    ∃ m1 cmds c, Update asciiToLower exampleFiltered (Msg.key (runeKey 'k')) =
        some (m1, cmds) ∧
      m1.cursor = 0 ∧ activeCommits m1 = activeCommits exampleFiltered ∧
      (activeCommits exampleFiltered)[(0 : Int).toNat]? = some c ∧
      currentCommit m1 = some c ∧ m1.currentDiff = none ∧ m1.loadingDiff = true ∧
      fetchHashes cmds = [c.Hash] :=
  navigation_selects_and_fetches asciiToLower exampleFiltered (runeKey 'k') 0
    (by decide) (by decide) (by decide) (by decide)
    (Or.inr (Or.inl ⟨Or.inl rfl, by decide, by decide⟩))

/-- C12 at the scenario of the specification: five commits, cursor on `c4` after `G`;
`space` and the first tick leave the engine ready, not playing, on `c4`. -/
theorem playback_at_end_stops_on_first_tick_witness :
    ∃ m1 cmds1 m2, Update asciiToLower fiveAtLast (Msg.key (runeKey ' ')) =
        some (m1, cmds1) ∧
      fetchHashes cmds1 = [] ∧
      Update asciiToLower m1 Msg.playTickMsg = some (m2, []) ∧
      m2.state = AppState.StateReady ∧ m2.playing = false ∧ m2.cursor = fiveAtLast.cursor ∧
      activeCommits m2 = activeCommits fiveAtLast :=
  playback_at_end_stops_on_first_tick asciiToLower fiveAtLast (runeKey ' ') rfl rfl
    (by decide)

/-- C13 at the example model while playing at speed 1, cursor on `c0`: the tick moves to
`c1`, fetches it and schedules the next tick. -/
theorem play_tick_advances_and_reschedules_witness :
    ∃ m1 c, Update asciiToLower examplePlaying Msg.playTickMsg =
        some (m1, [Cmd.loadDiff examplePlaying.root c.Hash, playTick examplePlaying.speed]) ∧
      m1.cursor = examplePlaying.cursor + 1 ∧ m1.state = AppState.StatePlaying ∧
      m1.playing = true ∧ activeCommits m1 = activeCommits examplePlaying ∧
      (activeCommits examplePlaying)[(examplePlaying.cursor + 1).toNat]? = some c ∧
      currentCommit m1 = some c :=
  (play_tick_advances_and_reschedules asciiToLower examplePlaying
    examplePlaying_reachable).1 rfl (by decide) (by decide)

/-- C14 at the example model: index 2 of the presets, and `+` moves to index 3. -/
theorem setSpeed_clamped_witness :
    (0 ≤ exampleModel.speedIdx ∧ exampleModel.speedIdx ≤ 4 ∧
      index speedPresets exampleModel.speedIdx = some exampleModel.speed) ∧
    ∃ s, index speedPresets (min (exampleModel.speedIdx + 1) 4) = some s ∧
      Update asciiToLower exampleModel (Msg.key (runeKey '+')) =
        some ({ exampleModel with speedIdx := min (exampleModel.speedIdx + 1) 4,
                                  speed := s }, []) :=
  ⟨(setSpeed_clamped asciiToLower exampleModel exampleModel_reachable).1,
    ((setSpeed_clamped asciiToLower exampleModel exampleModel_reachable).2 (runeKey '+')
      (by decide) (by decide)).1 (Or.inl rfl)⟩

/-- C15 at the example model with the filter `alice` active and the cursor on `c3`. -/
theorem resetToStart_clears_witness :
    ∃ m1 d rest, exampleFiltered.commits = d :: rest ∧
      Update asciiToLower exampleFiltered (Msg.key (namedKey "esc")) =
        some (m1, [Cmd.loadDiff exampleFiltered.root d.Hash]) ∧
      m1.filterAuthor = [] ∧ m1.filteredCommits = none ∧
      activeCommits m1 = exampleFiltered.commits ∧
      m1.searchQuery = [] ∧ m1.searchResults = [] ∧ m1.playing = false ∧
      m1.state = AppState.StateReady ∧ m1.cursor = 0 ∧ currentCommit m1 = some d :=
  resetToStart_clears asciiToLower exampleFiltered (namedKey "esc") (by decide) (by decide)
    rfl (by decide)

/-- C16 at the example model after `j` (cursor on `c1`): the completion for `c0` is stale
and leaves `currentDiff` as it was. -/
theorem stale_or_failed_completion_keeps_diff_witness :
    ∃ m1, Update asciiToLower exampleAtSecond
        (Msg.diffLoadedMsg c0.Hash (some exampleStats) none) = some (m1, []) ∧
      m1.currentDiff = exampleAtSecond.currentDiff :=
  stale_or_failed_completion_keeps_diff asciiToLower exampleAtSecond c0.Hash
    (some exampleStats) none
    (Or.inr ⟨by decide, by decide, fun c hc => by
      have h1 : (activeCommits exampleAtSecond)[exampleAtSecond.cursor.toNat]? = some c1 := rfl
      rw [h1] at hc
      have hcc : c1 = c := Option.some.inj hc
      subst hcc
      decide⟩)

/-- C18 at the example model after `space` and `/`: search mode, not playing. -/
theorem playing_excludes_input_modes_witness : exampleSearching.playing = false :=
  playing_excludes_input_modes asciiToLower exampleSearching
    exampleSearching_after_play_reachable (Or.inl rfl)

/-! ## Search results, the presentation layer, panics -/

section SearchOrder

variable (toLower : GoString → GoString)

theorem enum_pairwise_fst (cs : List Commit) :
    cs.enum.Pairwise (fun a b => a.1 < b.1) := by
  have h : (cs.enum.map Prod.fst).Pairwise (fun a b => a < b) := by
    rw [List.enum_map_fst]
    exact List.pairwise_lt_range cs.length
  exact List.pairwise_map.mp h

/-- C27: for every history and every query the `searchResults` computed by `runSearch` is
strictly increasing (so it has no duplicates), and every element is a valid index into the
full history. -/
theorem runSearch_results_increasing (m : Model) :
    (runSearch toLower m).searchResults.Pairwise (fun a b => a < b) ∧
    ∀ z ∈ (runSearch toLower m).searchResults, 0 ≤ z ∧ z < (m.commits.length : Int) := by
  constructor
  · rw [runSearch_results]
    by_cases hq : m.searchQuery = []
    · simp [hq]
    · rw [if_neg hq]
      refine List.pairwise_map.mpr ?_
      refine ((enum_pairwise_fst m.commits).sublist (List.filter_sublist _)).imp ?_
      intro a b hab
      exact Int.ofNat_lt.mpr hab
  · intro z hz
    obtain ⟨_, i, c, rfl, hget, _⟩ := (mem_runSearch_results toLower m z).mp hz
    have hlt : i < m.commits.length := (List.getElem?_eq_some_iff.mp hget).1
    exact ⟨Int.ofNat_nonneg i, Int.ofNat_lt.mpr hlt⟩

end SearchOrder

/-- C29 (the code panics on a reachable state).  `G` pressed while the history is loading
sets the cursor to `len(activeCommits()) - 1 = -1`; the load completion leaves the cursor at
-1 with four commits in the view and issues the first fetch; on the completion of that
fetch `currentCommit` evaluates `ac[-1]`, out of range. -/
theorem update_panics_after_G_while_loading :
    ∃ m,
      run asciiToLower exampleNew [keyRune 'G', exampleLoad] =
        some (m, [Cmd.loadDiff (lit "/repo") [], Cmd.loadDiff (lit "/repo") c0.Hash]) ∧
      m.cursor = -1 ∧ (activeCommits m).length = 4 ∧ currentCommit m = none ∧
      Update asciiToLower m (Msg.diffLoadedMsg c0.Hash (some exampleStats) none) = none ∧
      run asciiToLower exampleNew
        [keyRune 'G', exampleLoad, Msg.diffLoadedMsg c0.Hash (some exampleStats) none] =
          none := by
  refine ⟨_, rfl, ?_, ?_, ?_, ?_, ?_⟩ <;> decide

/-- C26 (the presentation layer displays another commit under a filter).  After the author
filter `alice` is confirmed, the active view is `[c1, c3]` and the cursor is 0: the commit
under the cursor, whose change set is fetched, is `c1`, while `renderDetail` and
`renderTimeline` display `m.commits[0]`, which is `c0`. -/
theorem presentation_displays_other_commit_under_filter :
    ∃ m,
      run asciiToLower exampleModel
          ([keyRune 'f'] ++ typeText "alice" ++ [keyNamed "enter"]) =
        some (m, [Cmd.loadDiff (lit "/repo") c1.Hash]) ∧
      activeCommits m = [c1, c3] ∧ m.cursor = 0 ∧ currentCommit m = some c1 ∧
      renderDetailCommit m = some (some c0) ∧ renderTimelineCommit m = some (some c0) ∧
      c0 ≠ c1 := by
  refine ⟨_, rfl, ?_, ?_, ?_, ?_, ?_, ?_⟩ <;> decide

set_option maxRecDepth 100000 in
/-- C28 (the code numbers the commits by line, not by position).  In the output of
`git log` the first line is a `gpg:` line, which has fewer than six fields and is skipped:
the two commits returned have `Index` 1 and 2, not 0 and 1. -/
theorem LoadHistory_index_counts_skipped_lines :
    LoadHistory asciiTrimSpace parseDigits exampleLogOutput =
      [{ c0 with Index := 1 }, { c1 with Index := 2 }] ∧
    (LoadHistory asciiTrimSpace parseDigits exampleLogOutput).map (fun c => c.Index) ≠
      [0, 1] := by
  constructor <;> decide

/-- C25 (the claim as stated fails).  For the changes `a.go` (modified), `b.go` (modified),
`c.go` (added), the first pass swaps `c.go` with `a.go`: the result is `c.go`, `b.go`,
`a.go`, in which the two modified files are in the opposite order. -/
theorem sortChanges_not_stable :
    sortChanges exampleChanges = exampleChanges.reverse ∧ ¬ StableAsStated exampleChanges := by
  refine ⟨by decide, fun h => ?_⟩
  have h1 := h StatusModified
  revert h1
  decide

/-- C21 (the claim as stated fails).  After the load completion the fetch for `c0` is in
flight; `j`, pressed before it completes, issues the fetch for `c1`: two fetches are in
flight.  `g` instead of `j` issues a second fetch for `c0`: two fetches for the same
identifier are in flight. -/
theorem two_fetches_in_flight :
    (∃ c, runFetch asciiToLower { model := exampleNew, inFlight := [] }
        [FetchEvent.msg exampleLoad, FetchEvent.msg (keyRune 'j')] = some c ∧
      c.inFlight = [c0.Hash, c1.Hash] ∧ ¬ c.inFlight.length ≤ 1) ∧
    (∃ c, runFetch asciiToLower { model := exampleNew, inFlight := [] }
        [FetchEvent.msg exampleLoad, FetchEvent.msg (keyRune 'g')] = some c ∧
      c.inFlight = [c0.Hash, c0.Hash] ∧ ¬ c.inFlight.Nodup) := by
  refine ⟨⟨_, rfl, ?_, ?_⟩, ⟨_, rfl, ?_, ?_⟩⟩ <;> decide

/-! ## The change-stat cache -/

theorem cacheGet_cacheSet (cache : DiffCache) (h h1 : GoString) (s : Option CommitStats) :
    cacheGet (cacheSet cache h1 s) h = if h = h1 then some s else cacheGet cache h := by
  by_cases e : h = h1
  · subst e
    simp [cacheGet, cacheSet]
  · have hb : (h == h1) = false := by simpa using e
    simp [cacheGet, cacheSet, List.lookup_cons, hb, e]

theorem LoadDiff_of_cached (loader : Loader) (cache : DiffCache) (dir h : GoString)
    (s : Option CommitStats) (hc : cacheGet cache h = some s) :
    LoadDiff loader cache dir h = { stats := s, err := none, cache := cache, calls := [] } := by
  simp [LoadDiff, hc]

theorem LoadDiff_of_not_cached (loader : Loader) (cache : DiffCache) (dir h : GoString)
    (hc : cacheGet cache h = none) :
    LoadDiff loader cache dir h =
      if (loader dir h).2 ≠ none then
        { stats := none, err := (loader dir h).2, cache := cache, calls := [(dir, h)] }
      else
        { stats := (loader dir h).1, err := none, cache := cacheSet cache h (loader dir h).1,
          calls := [(dir, h)] } := by
  simp [LoadDiff, hc]

/-- A cached entry survives any request: it is neither evicted nor overwritten. -/
theorem cacheGet_after_LoadDiff (loader : Loader) (cache : DiffCache) (dir h h1 : GoString)
    (s : Option CommitStats) (hc : cacheGet cache h = some s) :
    cacheGet (LoadDiff loader cache dir h1).cache h = some s := by
  cases hc1 : cacheGet cache h1 with
  | some s1 => rw [LoadDiff_of_cached loader cache dir h1 s1 hc1]; exact hc
  | none =>
    rw [LoadDiff_of_not_cached loader cache dir h1 hc1]
    have hne : h ≠ h1 := by
      intro e
      rw [e, hc1] at hc
      exact absurd hc (by simp)
    by_cases he : (loader dir h1).2 ≠ none
    · rw [if_pos he]; exact hc
    · rw [if_neg he]
      show cacheGet (cacheSet cache h1 _) h = some s
      rw [cacheGet_cacheSet, if_neg hne]
      exact hc

theorem cacheGet_after_serve (reqs : List Request) (cache : DiffCache) (h : GoString)
    (s : Option CommitStats) (hc : cacheGet cache h = some s) :
    cacheGet (serve cache reqs) h = some s := by
  induction reqs generalizing cache with
  | nil => exact hc
  | cons r rest ih =>
    exact ih _ (cacheGet_after_LoadDiff r.loader cache r.dir h r.hash s hc)

/-- A successful `LoadDiff` leaves its result in the cache. -/
theorem cacheGet_after_success (loader : Loader) (cache : DiffCache) (dir h : GoString)
    (hok : (LoadDiff loader cache dir h).err = none) :
    cacheGet (LoadDiff loader cache dir h).cache h =
      some (LoadDiff loader cache dir h).stats := by
  cases hc : cacheGet cache h with
  | some s => rw [LoadDiff_of_cached loader cache dir h s hc]; exact hc
  | none =>
    rw [LoadDiff_of_not_cached loader cache dir h hc] at hok ⊢
    by_cases he : (loader dir h).2 ≠ none
    · rw [if_pos he] at hok
      exact absurd hok he
    · rw [if_neg he]
      show cacheGet (cacheSet cache h _) h = _
      rw [cacheGet_cacheSet, if_pos rfl]

/-- C22: once a `LoadDiff` for the hash `h` has succeeded, every later `LoadDiff` for `h`,
after any sequence of requests (for any hashes, with any behaviour of the external loader),
returns the same stats and no error, leaves the cache as it is and makes no call to the
external loader. -/
theorem LoadDiff_success_is_memoized (loader : Loader) (cache : DiffCache)
    (dir h : GoString) (hok : (LoadDiff loader cache dir h).err = none)
    (reqs : List Request) (loader1 : Loader) (dir1 : GoString) :
    LoadDiff loader1 (serve (LoadDiff loader cache dir h).cache reqs) dir1 h =
      { stats := (LoadDiff loader cache dir h).stats, err := none,
        cache := serve (LoadDiff loader cache dir h).cache reqs, calls := [] } :=
  LoadDiff_of_cached loader1 _ dir1 h _
    (cacheGet_after_serve reqs _ h _ (cacheGet_after_success loader cache dir h hok))

theorem cacheGet_none_after_LoadDiff (loader : Loader) (cache : DiffCache)
    (dir h h1 : GoString) (hc : cacheGet cache h = none) (hne : h1 ≠ h) :
    cacheGet (LoadDiff loader cache dir h1).cache h = none := by
  cases hc1 : cacheGet cache h1 with
  | some s1 => rw [LoadDiff_of_cached loader cache dir h1 s1 hc1]; exact hc
  | none =>
    rw [LoadDiff_of_not_cached loader cache dir h1 hc1]
    by_cases he : (loader dir h1).2 ≠ none
    · rw [if_pos he]; exact hc
    · rw [if_neg he]
      show cacheGet (cacheSet cache h1 _) h = none
      rw [cacheGet_cacheSet, if_neg (fun e => hne e.symm)]
      exact hc

theorem cacheGet_none_after_serve (reqs : List Request) (cache : DiffCache) (h : GoString)
    (hc : cacheGet cache h = none) (hreqs : ∀ r ∈ reqs, r.hash ≠ h) :
    cacheGet (serve cache reqs) h = none := by
  induction reqs generalizing cache with
  | nil => exact hc
  | cons r rest ih =>
    exact ih _
      (cacheGet_none_after_LoadDiff r.loader cache r.dir h r.hash hc
        (hreqs r (List.mem_cons_self r rest)))
      (fun q hq => hreqs q (List.mem_cons_of_mem r hq))

/-- C23 (the claim as stated fails).  The first `LoadDiff` for the hash of `c0` fails; the
later one, when the external loader works, calls the loader again and returns the stats
without an error. -/
theorem LoadDiff_error_not_memoized :
    (LoadDiff failingLoader [] (lit "/repo") c0.Hash).err ≠ none ∧
    LoadDiff workingLoader (LoadDiff failingLoader [] (lit "/repo") c0.Hash).cache
        (lit "/repo") c0.Hash =
      { stats := some exampleStats, err := none, cache := [(c0.Hash, some exampleStats)],
        calls := [(lit "/repo", c0.Hash)] } := by
  constructor <;> decide

/-- C23 (amended): when a `LoadDiff` for the hash `h` fails, nothing is memoized: the cache is
unchanged and has no entry for `h`, and a later `LoadDiff` for `h`, after any requests for
other hashes, calls the external loader again and returns what that call returns (its error,
or its stats, which are then cached). -/
theorem LoadDiff_error_is_retried (loader : Loader) (cache : DiffCache) (dir h : GoString)
    (herr : (LoadDiff loader cache dir h).err ≠ none)
    (reqs : List Request) (hreqs : ∀ r ∈ reqs, r.hash ≠ h)
    (loader1 : Loader) (dir1 : GoString) :
    (LoadDiff loader cache dir h).cache = cache ∧ cacheGet cache h = none ∧
    (LoadDiff loader1 (serve cache reqs) dir1 h).calls = [(dir1, h)] ∧
    (LoadDiff loader1 (serve cache reqs) dir1 h).err = (loader1 dir1 h).2 ∧
    ((loader1 dir1 h).2 = none →
      (LoadDiff loader1 (serve cache reqs) dir1 h).stats = (loader1 dir1 h).1 ∧
      cacheGet (LoadDiff loader1 (serve cache reqs) dir1 h).cache h =
        some (loader1 dir1 h).1) := by
  have hnone : cacheGet cache h = none := by
    cases hc : cacheGet cache h with
    | none => rfl
    | some s =>
      rw [LoadDiff_of_cached loader cache dir h s hc] at herr
      exact absurd rfl herr
  have hsame : (LoadDiff loader cache dir h).cache = cache := by
    rw [LoadDiff_of_not_cached loader cache dir h hnone] at herr ⊢
    by_cases he : (loader dir h).2 ≠ none
    · rw [if_pos he]
    · rw [if_neg he] at herr
      exact absurd rfl herr
  have hlater := cacheGet_none_after_serve reqs cache h hnone hreqs
  rw [LoadDiff_of_not_cached loader1 (serve cache reqs) dir1 h hlater]
  refine ⟨hsame, hnone, ?_, ?_, ?_⟩
  · by_cases he : (loader1 dir1 h).2 ≠ none
    · rw [if_pos he]
    · rw [if_neg he]
  · by_cases he : (loader1 dir1 h).2 ≠ none
    · rw [if_pos he]
    · rw [if_neg he]
      exact (not_not.mp he).symm
  · intro he
    rw [if_neg (not_not.mpr he)]
    exact ⟨rfl, by show cacheGet (cacheSet _ h _) h = _; rw [cacheGet_cacheSet, if_pos rfl]⟩

/-! ## Transitions and the displayed change set -/

section Frames

variable (toLower : GoString → GoString)

theorem Framed_same (m m1 : Model) (hc : m1.commits = m.commits)
    (hd : m1.currentDiff = m.currentDiff) (hcur : m1.cursor = m.cursor)
    (hf : m1.filteredCommits = m.filteredCommits) : Framed m m1 [] :=
  ⟨hc, fun _ h => hf.trans h, Nat.zero_le 1, Or.inr ⟨hd, hcur, hf⟩⟩

theorem stepForward_framed (m m1 : Model) (cmds : List Cmd)
    (h : stepForward m = some (m1, cmds)) : Framed m m1 cmds := by
  by_cases hlt : m.cursor < ((activeCommits m).length : Int) - 1
  · cases hc : currentCommit { m with cursor := m.cursor + 1, currentDiff := none,
                                      loadingDiff := true } with
    | none => simp [stepForward, hlt, hc] at h
    | some c =>
      rw [stepForward_of_lt m c hlt hc] at h
      simp only [Option.some.injEq, Prod.mk.injEq] at h
      obtain ⟨rfl, rfl⟩ := h
      exact ⟨rfl, fun _ hf => hf, by rw [fetchHashes_forward]; exact Nat.le_refl 1,
        Or.inl rfl⟩
  · rw [stepForward_of_not_lt m hlt] at h
    simp only [Option.some.injEq, Prod.mk.injEq] at h
    obtain ⟨rfl, rfl⟩ := h
    exact Framed_same m _ rfl rfl rfl rfl

theorem stepBackward_framed (m m1 : Model) (cmds : List Cmd)
    (h : stepBackward m = some (m1, cmds)) : Framed m m1 cmds := by
  by_cases hpos : m.cursor > 0
  · cases hc : currentCommit { m with cursor := m.cursor - 1, currentDiff := none,
                                      loadingDiff := true } with
    | none => simp [stepBackward, hpos, hc] at h
    | some c =>
      rw [stepBackward_of_pos m c hpos hc] at h
      simp only [Option.some.injEq, Prod.mk.injEq] at h
      obtain ⟨rfl, rfl⟩ := h
      exact ⟨rfl, fun _ hf => hf, Nat.le_refl 1, Or.inl rfl⟩
  · simp only [stepBackward, hpos, if_false, Option.some.injEq, Prod.mk.injEq] at h
    obtain ⟨rfl, rfl⟩ := h
    exact Framed_same m _ rfl rfl rfl rfl

theorem handleSearchKey_framed (m m1 : Model) (cmds : List Cmd) (k : KeyMsg)
    (h : handleSearchKey toLower m k = some (m1, cmds)) : Framed m m1 cmds := by
  by_cases hent : k.name = lit "enter"
  · by_cases hres : m.searchResults.length > 0
    · simp +decide only [handleSearchKey, hent, hres, if_true, if_false, Option.bind_eq_bind,
        Option.bind_eq_some, Option.some.injEq, Prod.mk.injEq, Option.pure_def] at h
      obtain ⟨r, _, c, _, rfl, rfl⟩ := h
      exact ⟨rfl, fun _ hf => hf, Nat.le_refl 1, Or.inl rfl⟩
    · simp +decide only [handleSearchKey, hent, hres, if_true, if_false, Option.some.injEq,
        Prod.mk.injEq] at h
      obtain ⟨rfl, rfl⟩ := h
      exact Framed_same m _ rfl rfl rfl rfl
  · obtain ⟨m2, h2, e1, e2, e3, e4, _⟩ := handleSearchKey_not_enter toLower m k hent
    rw [h2] at h
    simp only [Option.some.injEq, Prod.mk.injEq] at h
    obtain ⟨rfl, rfl⟩ := h
    exact Framed_same m _ e3 e4 e1 e2

theorem handleFilterKey_framed (m m1 : Model) (cmds : List Cmd) (k : KeyMsg)
    (h : handleFilterKey toLower m k = some (m1, cmds)) : Framed m m1 cmds := by
  by_cases hk : k.name = lit "enter"
  · rw [handleFilterKey_enter toLower m k hk] at h
    simp only [Option.some.injEq, Prod.mk.injEq] at h
    obtain ⟨rfl, rfl⟩ := h
    refine ⟨rfl, fun hc _ => ?_, ?_, Or.inl rfl⟩
    · simp [hc]
    · split <;> simp [fetchHashes]
  · unfold handleFilterKey at h
    simp only [hk, if_false] at h
    split_ifs at h <;> simp only [Option.some.injEq, Prod.mk.injEq] at h <;>
      (obtain ⟨rfl, rfl⟩ := h; exact Framed_same m _ rfl rfl rfl rfl)

theorem handleKey_framed (m m1 : Model) (cmds : List Cmd) (k : KeyMsg)
    (h : handleKey toLower m k = some (m1, cmds)) : Framed m m1 cmds := by
  by_cases hs : m.state = AppState.StateSearching
  · rw [handleKey_searching toLower m k hs] at h
    exact handleSearchKey_framed toLower m m1 cmds k h
  by_cases hf : m.state = AppState.StateFiltering
  · rw [handleKey_filtering toLower m k hf] at h
    exact handleFilterKey_framed toLower m m1 cmds k h
  revert h
  revert m1 cmds
  apply handleKey_normal_elim toLower m k hs hf
    (fun r => ∀ (m1 : Model) (cmds : List Cmd), r = some (m1, cmds) → Framed m m1 cmds)
  · intro m1 cmds h
    simp only [Option.some.injEq, Prod.mk.injEq] at h
    obtain ⟨rfl, rfl⟩ := h
    exact ⟨rfl, fun _ h => h, by decide, Or.inr ⟨rfl, rfl, rfl⟩⟩
  · intro m1 cmds h
    exact stepForward_framed m m1 cmds h
  · intro m1 cmds h
    exact stepBackward_framed m m1 cmds h
  · intro m1 cmds h
    simp only [Option.bind_eq_some, Option.some.injEq, Prod.mk.injEq] at h
    obtain ⟨_, _, rfl, rfl⟩ := h
    exact ⟨rfl, fun _ h => h, Nat.le_refl 1, Or.inl rfl⟩
  · intro m1 cmds h
    simp only [Option.bind_eq_some, Option.some.injEq, Prod.mk.injEq] at h
    obtain ⟨_, _, rfl, rfl⟩ := h
    exact ⟨rfl, fun _ h => h, Nat.le_refl 1, Or.inl rfl⟩
  · intro m1 cmds h
    split_ifs at h <;> simp only [Option.some.injEq, Prod.mk.injEq] at h <;>
      obtain ⟨rfl, rfl⟩ := h
    · exact Framed_same m _ rfl rfl rfl rfl
    · exact ⟨rfl, fun _ h => h, by simp [fetchHashes, playTick], Or.inr ⟨rfl, rfl, rfl⟩⟩
  · intro m1 cmds h
    split_ifs at h <;>
      simp only [Option.bind_eq_some, Option.some.injEq, Prod.mk.injEq] at h
    · obtain ⟨_, _, rfl, rfl⟩ := h
      exact Framed_same m _ rfl rfl rfl rfl
    · obtain ⟨rfl, rfl⟩ := h
      exact Framed_same m _ rfl rfl rfl rfl
  · intro m1 cmds h
    split_ifs at h <;>
      simp only [Option.bind_eq_some, Option.some.injEq, Prod.mk.injEq] at h
    · obtain ⟨_, _, rfl, rfl⟩ := h
      exact Framed_same m _ rfl rfl rfl rfl
    · obtain ⟨rfl, rfl⟩ := h
      exact Framed_same m _ rfl rfl rfl rfl
  · intro m1 cmds h
    simp only [Option.some.injEq, Prod.mk.injEq] at h
    obtain ⟨rfl, rfl⟩ := h
    exact Framed_same m _ rfl rfl rfl rfl
  · intro m1 cmds h
    simp only [Option.some.injEq, Prod.mk.injEq] at h
    obtain ⟨rfl, rfl⟩ := h
    exact Framed_same m _ rfl rfl rfl rfl
  · intro m1 cmds h
    simp only [Option.some.injEq, Prod.mk.injEq] at h
    obtain ⟨rfl, rfl⟩ := h
    exact Framed_same m _ rfl rfl rfl rfl
  · intro m1 cmds h
    simp only [Option.some.injEq, Prod.mk.injEq] at h
    obtain ⟨rfl, rfl⟩ := h
    refine ⟨rfl, fun _ _ => rfl, ?_, Or.inl rfl⟩
    split <;> simp [fetchHashes]
  · intro m1 cmds h
    simp only [Option.some.injEq, Prod.mk.injEq] at h
    obtain ⟨rfl, rfl⟩ := h
    exact Framed_same m _ rfl rfl rfl rfl

/-- Every message that is neither a history-load completion nor a change-set completion. -/
theorem Update_framed (m m1 : Model) (cmds : List Cmd) (msg : Msg)
    (hl : isLoadDone msg = false) (hd : ∀ h s e, msg ≠ Msg.diffLoadedMsg h s e)
    (h : Update toLower m msg = some (m1, cmds)) : Framed m m1 cmds := by
  cases msg with
  | windowSize w ht =>
    simp only [Update, Option.some.injEq, Prod.mk.injEq] at h
    obtain ⟨rfl, rfl⟩ := h
    exact Framed_same m _ rfl rfl rfl rfl
  | spinnerTickMsg =>
    simp only [Update] at h
    split_ifs at h <;> simp only [Option.some.injEq, Prod.mk.injEq] at h <;>
      obtain ⟨rfl, rfl⟩ := h
    · exact ⟨rfl, fun _ h => h, by decide, Or.inr ⟨rfl, rfl, rfl⟩⟩
    · exact Framed_same m _ rfl rfl rfl rfl
  | loadDoneMsg commits registry err => simp [isLoadDone] at hl
  | diffLoadedMsg hash stats err => exact absurd rfl (hd hash stats err)
  | playTickMsg =>
    simp only [Update] at h
    split_ifs at h
    · exact stepForward_framed m m1 cmds h
    · simp only [Option.some.injEq, Prod.mk.injEq] at h
      obtain ⟨rfl, rfl⟩ := h
      exact Framed_same m _ rfl rfl rfl rfl
  | key k => exact handleKey_framed toLower m m1 cmds k h
  | other =>
    simp only [Update, Option.some.injEq, Prod.mk.injEq] at h
    obtain ⟨rfl, rfl⟩ := h
    exact Framed_same m _ rfl rfl rfl rfl

end Frames

section DisplayedDiff

variable (toLower : GoString → GoString)

theorem currentCommit_congr (m m1 : Model) (hcur : m1.cursor = m.cursor)
    (hf : m1.filteredCommits = m.filteredCommits) (hc : m1.commits = m.commits) :
    currentCommit m1 = currentCommit m := by
  simp only [currentCommit, activeCommits, hcur, hf, hc]

theorem Update_diffLoaded (m m1 : Model) (cmds : List Cmd) (hash : GoString)
    (stats : Option CommitStats) (err : Option GoString)
    (h : Update toLower m (Msg.diffLoadedMsg hash stats err) = some (m1, cmds)) :
    cmds = [] ∧ m1.commits = m.commits ∧ m1.cursor = m.cursor ∧
    m1.filteredCommits = m.filteredCommits ∧
    (m1.currentDiff = m.currentDiff ∨
      (err = none ∧ m1.currentDiff = stats ∧ ∃ c, currentCommit m = some c ∧ hash = c.Hash)) := by
  by_cases he : err = none
  · cases hc : currentCommit { m with loadingDiff := false } with
    | none => simp [Update, he, hc] at h
    | some c =>
      have hc1 : currentCommit m = some c := hc
      by_cases hh : hash = c.Hash
      · simp [Update, he, hc, hh] at h
        obtain ⟨rfl, rfl⟩ := h
        exact ⟨rfl, rfl, rfl, rfl, Or.inr ⟨he, rfl, c, hc1, hh⟩⟩
      · simp [Update, he, hc, hh] at h
        obtain ⟨rfl, rfl⟩ := h
        exact ⟨rfl, rfl, rfl, rfl, Or.inl rfl⟩
  · simp [Update, he] at h
    obtain ⟨rfl, rfl⟩ := h
    exact ⟨rfl, rfl, rfl, rfl, Or.inl rfl⟩

theorem Update_loadDone (m m1 : Model) (cmds : List Cmd) (commits : List Commit)
    (registry : Option Registry) (err : Option GoString)
    (h : Update toLower m (Msg.loadDoneMsg commits registry err) = some (m1, cmds)) :
    m1.currentDiff = m.currentDiff ∧ (fetchHashes cmds).length ≤ 1 := by
  by_cases he : err ≠ none
  · simp only [Update] at h
    rw [if_pos he] at h
    simp only [Option.some.injEq, Prod.mk.injEq] at h
    obtain ⟨rfl, rfl⟩ := h
    exact ⟨rfl, by decide⟩
  · cases hc : commits with
    | nil =>
      simp [Update, he, hc] at h
      obtain ⟨rfl, rfl⟩ := h
      exact ⟨rfl, by decide⟩
    | cons c0 rest =>
      simp [Update, he, hc, index] at h
      obtain ⟨rfl, rfl⟩ := h
      exact ⟨rfl, by simp [fetchHashes, loadDiff]⟩

/-- C21 (amended): every transition emits at most one change-set fetch, so each event adds
at most one fetch to those in flight; the engine neither tracks nor bounds the fetches in
flight. -/
theorem at_most_one_fetch_per_transition (m m1 : Model) (cmds : List Cmd) (msg : Msg)
    (h : Update toLower m msg = some (m1, cmds)) :
    (fetchHashes cmds).length ≤ 1 ∧
    ∀ (inFlight : List GoString) (c1 : FetchConfig),
      stepFetch toLower { model := m, inFlight := inFlight } (FetchEvent.msg msg) = some c1 →
      c1.inFlight.length ≤ inFlight.length + 1 := by
  have hle : (fetchHashes cmds).length ≤ 1 := by
    cases hmsg : msg with
    | loadDoneMsg commits registry err =>
      rw [hmsg] at h
      exact (Update_loadDone toLower m m1 cmds commits registry err h).2
    | diffLoadedMsg hash stats err =>
      rw [hmsg] at h
      rw [(Update_diffLoaded toLower m m1 cmds hash stats err h).1]
      decide
    | windowSize w ht =>
      rw [hmsg] at h
      exact (Update_framed toLower m m1 cmds (Msg.windowSize w ht) rfl (fun _ _ _ e => by cases e) h).2.2.1
    | spinnerTickMsg =>
      rw [hmsg] at h
      exact (Update_framed toLower m m1 cmds Msg.spinnerTickMsg rfl (fun _ _ _ e => by cases e) h).2.2.1
    | playTickMsg =>
      rw [hmsg] at h
      exact (Update_framed toLower m m1 cmds Msg.playTickMsg rfl (fun _ _ _ e => by cases e) h).2.2.1
    | key k =>
      rw [hmsg] at h
      exact (Update_framed toLower m m1 cmds (Msg.key k) rfl (fun _ _ _ e => by cases e) h).2.2.1
    | other =>
      rw [hmsg] at h
      exact (Update_framed toLower m m1 cmds Msg.other rfl (fun _ _ _ e => by cases e) h).2.2.1
  refine ⟨hle, fun inFlight c1 hstep => ?_⟩
  simp only [stepFetch, h, Option.bind_eq_bind, Option.some_bind, Option.pure_def,
    Option.some.injEq] at hstep
  rw [← hstep]
  simp only [List.length_append]
  omega

end DisplayedDiff

section DisplayedDiffInv

variable (toLower : GoString → GoString)

theorem currentCommit_of_no_history (m : Model) (c : Commit) (hc : m.commits = [])
    (hf : m.filteredCommits = none) (h : currentCommit m = some c) : c.Hash = [] := by
  simp [currentCommit, activeCommits, hc, hf] at h
  rw [← h]
  rfl

theorem isLoadDone_of_append (pre : List Msg) (a : Msg)
    (h : ∀ x ∈ pre ++ [a], isLoadDone x = false) :
    (∀ x ∈ pre, isLoadDone x = false) ∧ isLoadDone a = false :=
  ⟨fun x hx => h x (List.mem_append_left _ hx),
   h a (List.mem_append_right _ (List.mem_singleton_self a))⟩

theorem DiffInv_step_framed (pre : List Msg) (m m1 : Model) (cmds : List Cmd) (a : Msg)
    (hJ : DiffInv pre m) (hF : Framed m m1 cmds) : DiffInv (pre ++ [a]) m1 := by
  obtain ⟨hc, hfn, -, hd⟩ := hF
  refine ⟨fun d hd1 => ?_, fun hno => ?_⟩
  · rcases hd with hd | ⟨hd, hcur, hf⟩
    · rw [hd] at hd1
      cases hd1
    · rw [hd] at hd1
      obtain ⟨h, c, hmem, hcc, hh⟩ := hJ.1 d hd1
      exact ⟨h, c, List.mem_append_left _ hmem,
        (currentCommit_congr m m1 hcur hf hc).trans hcc, hh⟩
  · obtain ⟨h1, h2, h3⟩ := hJ.2 (isLoadDone_of_append pre a hno).1
    refine ⟨hc.trans h1, hfn h1 h2, ?_⟩
    rcases hd with hd | ⟨hd, -, -⟩
    · exact hd
    · exact hd.trans h3

theorem DiffInv_step (pre : List Msg) (m m1 : Model) (cmds : List Cmd) (a : Msg)
    (hJ : DiffInv pre m) (ha1 : isDeliverable a = true)
    (ha2 : isLoadDone a = true → ∀ x ∈ pre, isLoadDone x = false)
    (h : Update toLower m a = some (m1, cmds)) : DiffInv (pre ++ [a]) m1 := by
  cases ha : a with
  | loadDoneMsg commits registry err =>
    rw [ha] at h ha2
    obtain ⟨-, -, h3⟩ := hJ.2 (ha2 rfl)
    have hd := (Update_loadDone toLower m m1 cmds commits registry err h).1
    refine ⟨fun d hd1 => ?_, fun hno => ?_⟩
    · rw [hd, h3] at hd1
      cases hd1
    · have := (isLoadDone_of_append pre _ hno).2
      simp [isLoadDone] at this
  | diffLoadedMsg hash stats err =>
    rw [ha] at h ha1
    obtain ⟨-, hc, hcur, hf, hd⟩ := Update_diffLoaded toLower m m1 cmds hash stats err h
    have hcc := currentCommit_congr m m1 hcur hf hc
    refine ⟨fun d hd1 => ?_, fun hno => ?_⟩
    · rcases hd with hd | ⟨he, hd, c, hcm, hh⟩
      · rw [hd] at hd1
        obtain ⟨h0, c, hmem, hcm, hh⟩ := hJ.1 d hd1
        exact ⟨h0, c, List.mem_append_left _ hmem, hcc.trans hcm, hh⟩
      · refine ⟨hash, c, ?_, hcc.trans hcm, hh⟩
        rw [he, ← hd, hd1]
        exact List.mem_append_right _ (List.mem_singleton_self _)
    · obtain ⟨h1, h2, h3⟩ := hJ.2 (isLoadDone_of_append pre _ hno).1
      refine ⟨hc.trans h1, hf.trans h2, ?_⟩
      rcases hd with hd | ⟨he, -, c, hcm, hh⟩
      · exact hd.trans h3
      · have hnil := currentCommit_of_no_history m c h1 h2 hcm
        rw [he, hh, hnil] at ha1
        simp [isDeliverable] at ha1
  | windowSize w ht =>
    rw [ha] at h
    exact DiffInv_step_framed pre m m1 cmds _ hJ
      (Update_framed toLower m m1 cmds (Msg.windowSize w ht) rfl (fun _ _ _ e => by cases e) h)
  | spinnerTickMsg =>
    rw [ha] at h
    exact DiffInv_step_framed pre m m1 cmds _ hJ
      (Update_framed toLower m m1 cmds Msg.spinnerTickMsg rfl (fun _ _ _ e => by cases e) h)
  | playTickMsg =>
    rw [ha] at h
    exact DiffInv_step_framed pre m m1 cmds _ hJ
      (Update_framed toLower m m1 cmds Msg.playTickMsg rfl (fun _ _ _ e => by cases e) h)
  | key k =>
    rw [ha] at h
    exact DiffInv_step_framed pre m m1 cmds _ hJ
      (Update_framed toLower m m1 cmds (Msg.key k) rfl (fun _ _ _ e => by cases e) h)
  | other =>
    rw [ha] at h
    exact DiffInv_step_framed pre m m1 cmds _ hJ
      (Update_framed toLower m m1 cmds Msg.other rfl (fun _ _ _ e => by cases e) h)

theorem envOK_of_append (pre : List Msg) (a : Msg) (rest : List Msg)
    (h : envOK (pre ++ a :: rest) = true) :
    isDeliverable a = true ∧ (isLoadDone a = true → ∀ x ∈ pre, isLoadDone x = false) := by
  simp only [envOK, Bool.and_eq_true, decide_eq_true_eq, List.all_append, List.all_cons,
    List.filter_append, List.length_append] at h
  refine ⟨h.2.2.1, fun ha x hx => ?_⟩
  have h1 := h.1
  rw [List.filter_cons_of_pos ha] at h1
  simp only [List.length_cons] at h1
  have h0 : (pre.filter isLoadDone).length = 0 := by omega
  have hnil := List.length_eq_zero.mp h0
  cases hx1 : isLoadDone x with
  | false => rfl
  | true =>
    have : x ∈ pre.filter isLoadDone := List.mem_filter.mpr ⟨hx, hx1⟩
    rw [hnil] at this
    cases this

theorem DiffInv_run (msgs : List Msg) :
    ∀ (pre : List Msg) (m0 m : Model) (cmds : List Cmd), DiffInv pre m0 →
      envOK (pre ++ msgs) = true → run toLower m0 msgs = some (m, cmds) →
      DiffInv (pre ++ msgs) m := by
  induction msgs with
  | nil =>
    intro pre m0 m cmds hJ _ h
    simp only [run, Option.some.injEq, Prod.mk.injEq] at h
    rw [List.append_nil, ← h.1]
    exact hJ
  | cons a rest ih =>
    intro pre m0 m cmds hJ henv h
    cases hU : Update toLower m0 a with
    | none => simp [run, hU] at h
    | some r =>
      obtain ⟨ma, ca⟩ := r
      rw [run_cons_of_step toLower m0 ma a rest ca hU] at h
      cases hR : run toLower ma rest with
      | none => simp [hR] at h
      | some r2 =>
        obtain ⟨mb, cb⟩ := r2
        simp only [hR, Option.some_bind, Option.some.injEq, Prod.mk.injEq] at h
        obtain ⟨hm, -⟩ := h
        subst hm
        obtain ⟨ha1, ha2⟩ := envOK_of_append pre a rest henv
        have hstep := DiffInv_step toLower pre m0 ma ca a hJ ha1 ha2 hU
        have hpre : pre ++ a :: rest = (pre ++ [a]) ++ rest := by simp
        rw [hpre] at henv ⊢
        exact ih (pre ++ [a]) ma mb cb hstep henv hR

theorem DiffInv_New (root branch : GoString) (maxCount : Int) :
    DiffInv [] (New root branch maxCount) :=
  ⟨fun d hd => (by cases hd), fun _ => ⟨rfl, rfl, rfl⟩⟩

/-- C30: the displayed change set belongs to the selected commit.  For every state reached
from `New` by messages the program delivers (at most one history-load completion, the one of
`Init`, and no successful completion for the empty hash, on which `git show` fails), a
non-`nil` `currentDiff` was delivered by a successful `diffLoadedMsg` whose hash is the hash
of the commit under the cursor; and every further such transition either leaves `currentDiff`
`nil` or leaves the commit under the cursor as it was. -/
theorem displayed_diff_belongs_to_selected (root branch : GoString) (maxCount : Int)
    (msgs : List Msg) (m : Model) (cmds : List Cmd) (henv : envOK msgs = true)
    (h : run toLower (New root branch maxCount) msgs = some (m, cmds)) :
    (∀ d, m.currentDiff = some d →
      ∃ hash c, Msg.diffLoadedMsg hash (some d) none ∈ msgs ∧ currentCommit m = some c ∧
        hash = c.Hash) ∧
    (∀ msg m1 cmds1, envOK (msgs ++ [msg]) = true →
      Update toLower m msg = some (m1, cmds1) →
      m1.currentDiff = none ∨ currentCommit m1 = currentCommit m) := by
  have hJ : DiffInv msgs m := by
    have := DiffInv_run toLower msgs [] (New root branch maxCount) m cmds
      (DiffInv_New root branch maxCount) (by simpa using henv) h
    simpa using this
  refine ⟨hJ.1, fun msg m1 cmds1 henv1 hU => ?_⟩
  obtain ⟨-, ha2⟩ := envOK_of_append msgs msg [] henv1
  cases hmsg : msg with
  | loadDoneMsg commits registry err =>
    rw [hmsg] at hU ha2
    left
    rw [(Update_loadDone toLower m m1 cmds1 commits registry err hU).1]
    exact (hJ.2 (ha2 rfl)).2.2
  | diffLoadedMsg hash stats err =>
    rw [hmsg] at hU
    obtain ⟨-, hc, hcur, hf, -⟩ := Update_diffLoaded toLower m m1 cmds1 hash stats err hU
    exact Or.inr (currentCommit_congr m m1 hcur hf hc)
  | windowSize w ht =>
    rw [hmsg] at hU
    obtain ⟨hc, -, -, hd⟩ :=
      Update_framed toLower m m1 cmds1 (Msg.windowSize w ht) rfl (fun _ _ _ e => by cases e) hU
    exact hd.imp id (fun x => currentCommit_congr m m1 x.2.1 x.2.2 hc)
  | spinnerTickMsg =>
    rw [hmsg] at hU
    obtain ⟨hc, -, -, hd⟩ :=
      Update_framed toLower m m1 cmds1 Msg.spinnerTickMsg rfl (fun _ _ _ e => by cases e) hU
    exact hd.imp id (fun x => currentCommit_congr m m1 x.2.1 x.2.2 hc)
  | playTickMsg =>
    rw [hmsg] at hU
    obtain ⟨hc, -, -, hd⟩ :=
      Update_framed toLower m m1 cmds1 Msg.playTickMsg rfl (fun _ _ _ e => by cases e) hU
    exact hd.imp id (fun x => currentCommit_congr m m1 x.2.1 x.2.2 hc)
  | key k =>
    rw [hmsg] at hU
    obtain ⟨hc, -, -, hd⟩ :=
      Update_framed toLower m m1 cmds1 (Msg.key k) rfl (fun _ _ _ e => by cases e) hU
    exact hd.imp id (fun x => currentCommit_congr m m1 x.2.1 x.2.2 hc)
  | other =>
    rw [hmsg] at hU
    obtain ⟨hc, -, -, hd⟩ :=
      Update_framed toLower m m1 cmds1 Msg.other rfl (fun _ _ _ e => by cases e) hU
    exact hd.imp id (fun x => currentCommit_congr m m1 x.2.1 x.2.2 hc)

end DisplayedDiffInv

/-- C21 (amended) at the example model and the key `j`: one fetch, for `c1`. -/
theorem at_most_one_fetch_per_transition_witness :
    Update asciiToLower exampleModel (keyRune 'j') =
      some (exampleAtSecond, [loadDiff exampleModel c1.Hash]) ∧
    ((fetchHashes [loadDiff exampleModel c1.Hash]).length ≤ 1 ∧
      ∀ (inFlight : List GoString) (c1 : FetchConfig),
        stepFetch asciiToLower { model := exampleModel, inFlight := inFlight }
          (FetchEvent.msg (keyRune 'j')) = some c1 →
        c1.inFlight.length ≤ inFlight.length + 1) :=
  ⟨by decide,
   at_most_one_fetch_per_transition asciiToLower exampleModel exampleAtSecond
     [loadDiff exampleModel c1.Hash] (keyRune 'j') (by decide)⟩

/-- C22 with the working loader for `c0`, then requests for `c1` and `c2`, then a request for
`c0` at a time when the external loader fails: the cached stats are returned. -/
theorem LoadDiff_success_is_memoized_witness :
    (LoadDiff workingLoader [] (lit "/repo") c0.Hash).err = none ∧
    LoadDiff failingLoader
        (serve (LoadDiff workingLoader [] (lit "/repo") c0.Hash).cache exampleRequests)
        (lit "/repo") c0.Hash =
      { stats := (LoadDiff workingLoader [] (lit "/repo") c0.Hash).stats, err := none,
        cache := serve (LoadDiff workingLoader [] (lit "/repo") c0.Hash).cache exampleRequests,
        calls := [] } :=
  ⟨by decide,
   LoadDiff_success_is_memoized workingLoader [] (lit "/repo") c0.Hash (by decide)
     exampleRequests failingLoader (lit "/repo")⟩

/-- C23 (amended) with the failing loader for `c0`, then requests for `c1` and `c2`, then a
request for `c0` when the external loader works: the loader is called again. -/
theorem LoadDiff_error_is_retried_witness :
    (LoadDiff failingLoader [] (lit "/repo") c0.Hash).err ≠ none ∧
    ((LoadDiff failingLoader [] (lit "/repo") c0.Hash).cache = [] ∧
      cacheGet [] c0.Hash = none ∧
      (LoadDiff workingLoader (serve [] exampleRequests) (lit "/repo") c0.Hash).calls =
        [(lit "/repo", c0.Hash)] ∧
      (LoadDiff workingLoader (serve [] exampleRequests) (lit "/repo") c0.Hash).err =
        (workingLoader (lit "/repo") c0.Hash).2 ∧
      ((workingLoader (lit "/repo") c0.Hash).2 = none →
        (LoadDiff workingLoader (serve [] exampleRequests) (lit "/repo") c0.Hash).stats =
          (workingLoader (lit "/repo") c0.Hash).1 ∧
        cacheGet (LoadDiff workingLoader (serve [] exampleRequests) (lit "/repo") c0.Hash).cache
            c0.Hash = some (workingLoader (lit "/repo") c0.Hash).1)) :=
  ⟨by decide,
   LoadDiff_error_is_retried failingLoader [] (lit "/repo") c0.Hash (by decide)
     exampleRequests
     (fun r hr => by
       simp only [exampleRequests, List.mem_cons, List.mem_singleton, List.not_mem_nil,
         or_false] at hr
       rcases hr with rfl | rfl <;> decide)
     workingLoader (lit "/repo")⟩

/-- C30 at the example: the history is loaded, then the change set of `c0` is
delivered; it is displayed and `c0` is under the cursor. -/
theorem displayed_diff_belongs_to_selected_witness :
    envOK [exampleLoad, Msg.diffLoadedMsg c0.Hash (some exampleStats) none] = true ∧
    run asciiToLower (New (lit "/repo") (lit "main") 0)
        [exampleLoad, Msg.diffLoadedMsg c0.Hash (some exampleStats) none] =
      some (exampleShown, [loadDiff exampleNew c0.Hash]) ∧
    exampleShown.currentDiff = some exampleStats ∧
    ((∀ d, exampleShown.currentDiff = some d →
      ∃ hash c, Msg.diffLoadedMsg hash (some d) none ∈
          [exampleLoad, Msg.diffLoadedMsg c0.Hash (some exampleStats) none] ∧
        currentCommit exampleShown = some c ∧ hash = c.Hash) ∧
    (∀ msg m1 cmds1,
      envOK ([exampleLoad, Msg.diffLoadedMsg c0.Hash (some exampleStats) none] ++ [msg]) =
        true →
      Update asciiToLower exampleShown msg = some (m1, cmds1) →
      m1.currentDiff = none ∨ currentCommit m1 = currentCommit exampleShown)) :=
  ⟨by decide, by decide, rfl,
   displayed_diff_belongs_to_selected asciiToLower (lit "/repo") (lit "main") 0
     [exampleLoad, Msg.diffLoadedMsg c0.Hash (some exampleStats) none] exampleShown
     [loadDiff exampleNew c0.Hash] (by decide) (by decide)⟩

section Sorting

theorem cons_set_perm {α : Type} (x b : α) :
    ∀ (xs : List α) (k : Nat), xs[k]? = some b → (b :: xs.set k x).Perm (x :: xs)
  | [], k, h => by simp at h
  | y :: ys, 0, h => by
    simp only [List.getElem?_cons_zero, Option.some.injEq] at h
    subst h
    exact List.Perm.swap x y ys
  | y :: ys, k + 1, h => by
    simp only [List.getElem?_cons_succ] at h
    have ih := cons_set_perm x b ys k h
    exact (List.Perm.swap y b _).trans ((ih.cons y).trans (List.Perm.swap x y ys))

theorem swap_perm {α : Type} :
    ∀ (l : List α) (i j : Nat) (a b : α), l[i]? = some a → l[j]? = some b → i < j →
      ((l.set i b).set j a).Perm l
  | [], i, j, a, b, hi, _, _ => by simp at hi
  | x :: xs, 0, 0, a, b, _, _, hij => by omega
  | x :: xs, 0, j + 1, a, b, hi, hj, _ => by
    simp only [List.getElem?_cons_zero, Option.some.injEq, List.getElem?_cons_succ] at hi hj
    subst hi
    exact cons_set_perm x b xs j hj
  | x :: xs, i + 1, 0, a, b, _, _, hij => by omega
  | x :: xs, i + 1, j + 1, a, b, hi, hj, hij => by
    simp only [List.getElem?_cons_succ] at hi hj
    exact (swap_perm xs i j a b hi hj (by omega)).cons x

theorem rankAt_congr (cs cs1 : List FileChange) (k : Nat) (h : cs1[k]? = cs[k]?) :
    rankAt cs1 k = rankAt cs k := by
  simp only [rankAt, h]

theorem rankAt_of_some (cs : List FileChange) (k : Nat) (c : FileChange)
    (h : cs[k]? = some c) : rankAt cs k = order c.Status := by
  simp only [rankAt, h]

theorem sortInner_perm (i j : Nat) (cs : List FileChange) (hij : i < j) :
    (sortInner i j cs).Perm cs := by
  cases hi : cs[i]? with
  | none => simp [sortInner, hi]
  | some a =>
    cases hj : cs[j]? with
    | none => simp [sortInner, hi, hj]
    | some b =>
      simp only [sortInner, hi, hj]
      by_cases hlt : order b.Status < order a.Status
      · rw [if_pos hlt]
        exact swap_perm cs i j a b hi hj hij
      · rw [if_neg hlt]

theorem sortInner_spec (i j : Nat) (cs : List FileChange) (hij : i < j)
    (hj : j < cs.length) :
    (sortInner i j cs).length = cs.length ∧
    (∀ k, k ≠ i → k ≠ j → (sortInner i j cs)[k]? = cs[k]?) ∧
    rankAt (sortInner i j cs) i ≤ rankAt (sortInner i j cs) j ∧
    ((rankAt (sortInner i j cs) i = rankAt cs i ∧ rankAt (sortInner i j cs) j = rankAt cs j) ∨
     (rankAt (sortInner i j cs) i = rankAt cs j ∧
      rankAt (sortInner i j cs) j = rankAt cs i)) := by
  have hi : i < cs.length := by omega
  have hia : cs[i]? = some cs[i] := List.getElem?_eq_getElem hi
  have hjb : cs[j]? = some cs[j] := List.getElem?_eq_getElem hj
  have ri := rankAt_of_some cs i _ hia
  have rj := rankAt_of_some cs j _ hjb
  by_cases hlt : order cs[j].Status < order cs[i].Status
  · have e : sortInner i j cs = (cs.set i cs[j]).set j cs[i] := by
      simp only [sortInner, hia, hjb]
      rw [if_pos hlt]
    have e1 : ((cs.set i cs[j]).set j cs[i])[i]? = some cs[j] := by
      rw [List.getElem?_set_ne (by omega), List.getElem?_set_self hi]
    have e2 : ((cs.set i cs[j]).set j cs[i])[j]? = some cs[i] := by
      rw [List.getElem?_set_self (by simpa using hj)]
    rw [e]
    have r1 := rankAt_of_some _ i _ e1
    have r2 := rankAt_of_some _ j _ e2
    refine ⟨by simp, fun k hk1 hk2 => ?_, ?_, Or.inr ⟨by rw [r1, rj], by rw [r2, ri]⟩⟩
    · rw [List.getElem?_set_ne (fun h => hk2 h.symm), List.getElem?_set_ne (fun h => hk1 h.symm)]
    · rw [r1, r2]
      omega
  · have e : sortInner i j cs = cs := by
      simp only [sortInner, hia, hjb]
      rw [if_neg hlt]
    rw [e]
    refine ⟨rfl, fun _ _ _ => rfl, ?_, Or.inl ⟨rfl, rfl⟩⟩
    rw [ri, rj]
    omega

theorem inner_spec (i : Nat) :
    ∀ (cnt s : Nat) (cs : List FileChange), i < s → s + cnt ≤ cs.length →
      ((List.range' s cnt).foldl (fun cs j => sortInner i j cs) cs).length = cs.length ∧
      ((List.range' s cnt).foldl (fun cs j => sortInner i j cs) cs).Perm cs ∧
      (∀ k, k ≠ i → (k < s ∨ s + cnt ≤ k) →
        ((List.range' s cnt).foldl (fun cs j => sortInner i j cs) cs)[k]? = cs[k]?) ∧
      (∀ j, s ≤ j → j < s + cnt →
        rankAt ((List.range' s cnt).foldl (fun cs j => sortInner i j cs) cs) i ≤
          rankAt ((List.range' s cnt).foldl (fun cs j => sortInner i j cs) cs) j) ∧
      rankAt ((List.range' s cnt).foldl (fun cs j => sortInner i j cs) cs) i ≤ rankAt cs i ∧
      (∀ v : Int, (∀ k, i ≤ k → k < cs.length → v ≤ rankAt cs k) →
        ∀ k, i ≤ k → k < cs.length →
          v ≤ rankAt ((List.range' s cnt).foldl (fun cs j => sortInner i j cs) cs) k) := by
  intro cnt
  induction cnt with
  | zero =>
    intro s cs _ _
    exact ⟨rfl, List.Perm.refl _, fun _ _ _ => rfl, fun j h1 h2 => by omega, le_refl _,
      fun v hv => hv⟩
  | succ cnt ih =>
    intro s cs his hlen
    simp only [List.range'_succ, List.foldl_cons]
    obtain ⟨l1, g1, o1, d1⟩ := sortInner_spec i s cs his (by omega)
    have p1 := sortInner_perm i s cs his
    obtain ⟨l2, p2, g2, o2, c2, lb2⟩ :=
      ih (s + 1) (sortInner i s cs) (by omega) (by rw [l1]; omega)
    refine ⟨l2.trans l1, p2.trans p1, fun k hk hr => ?_, fun j hj1 hj2 => ?_, ?_,
      fun v hv k hk1 hk2 => ?_⟩
    · rw [g2 k hk (by omega), g1 k hk (by omega)]
    · by_cases hjs : j = s
      · subst hjs
        rw [rankAt_congr _ _ j (g2 j (by omega) (Or.inl (by omega)))]
        exact le_trans c2 o1
      · exact o2 j (by omega) (by omega)
    · rcases d1 with ⟨e1, -⟩ | ⟨e1, e2⟩
      · rw [← e1]; exact c2
      · have := c2
        omega
    · refine lb2 v (fun k1 hk3 hk4 => ?_) k hk1 (by rw [l1]; exact hk2)
      rw [l1] at hk4
      by_cases hki : k1 = i
      · subst hki
        rcases d1 with ⟨e1, -⟩ | ⟨e1, -⟩
        · rw [e1]; exact hv k1 hk3 hk4
        · rw [e1]; exact hv s (by omega) (by omega)
      · by_cases hks : k1 = s
        · subst hks
          rcases d1 with ⟨-, e2⟩ | ⟨-, e2⟩
          · rw [e2]; exact hv k1 hk3 hk4
          · rw [e2]; exact hv i (le_refl _) (by omega)
        · rw [rankAt_congr _ _ k1 (g1 k1 hki hks)]
          exact hv k1 hk3 hk4

theorem outer_spec (changes : List FileChange) :
    ∀ n, n ≤ changes.length - 1 →
      ((List.range n).foldl
        (fun cs i =>
          (List.range' (i + 1) (changes.length - (i + 1))).foldl
            (fun cs j => sortInner i j cs) cs)
        changes).length = changes.length ∧
      ((List.range n).foldl
        (fun cs i =>
          (List.range' (i + 1) (changes.length - (i + 1))).foldl
            (fun cs j => sortInner i j cs) cs)
        changes).Perm changes ∧
      ∀ a b, a < n → a < b → b < changes.length →
        rankAt ((List.range n).foldl
          (fun cs i =>
            (List.range' (i + 1) (changes.length - (i + 1))).foldl
              (fun cs j => sortInner i j cs) cs)
          changes) a ≤
        rankAt ((List.range n).foldl
          (fun cs i =>
            (List.range' (i + 1) (changes.length - (i + 1))).foldl
              (fun cs j => sortInner i j cs) cs)
          changes) b := by
  intro n
  induction n with
  | zero =>
    intro _
    exact ⟨rfl, List.Perm.refl _, fun a b h => by omega⟩
  | succ n ih =>
    intro hn
    obtain ⟨l0, p0, q0⟩ := ih (by omega)
    simp only [List.range_succ, List.foldl_append, List.foldl_cons, List.foldl_nil]
    generalize (List.range n).foldl
        (fun cs i =>
          (List.range' (i + 1) (changes.length - (i + 1))).foldl
            (fun cs j => sortInner i j cs) cs)
        changes = cs at l0 p0 q0 ⊢
    obtain ⟨l2, p2, g2, o2, -, lb2⟩ :=
      inner_spec n (changes.length - (n + 1)) (n + 1) cs (by omega) (by rw [l0]; omega)
    refine ⟨l2.trans l0, p2.trans p0, fun a b ha hab hb => ?_⟩
    by_cases han : a = n
    · subst han
      exact o2 b (by omega) (by omega)
    · have ha1 : a < n := by omega
      rw [rankAt_congr _ _ a (g2 a han (Or.inl (by omega)))]
      by_cases hbn : b < n
      · rw [rankAt_congr _ _ b (g2 b (by omega) (Or.inl (by omega)))]
        exact q0 a b ha1 hab hb
      · exact lb2 (rankAt cs a)
          (fun k hk1 hk2 => q0 a k ha1 (by omega) (by rw [← l0]; exact hk2))
          b (by omega) (by rw [l0]; exact hb)

/-- C24: for every list of file changes, `sortChanges` yields a permutation of its input in
which the ranks are non-decreasing, the ranks being added 0 < modified 1 < renamed 2 <
deleted 3. -/
theorem sortChanges_sorted_permutation (changes : List FileChange) :
    (sortChanges changes).Perm changes ∧
    (sortChanges changes).Pairwise (fun a b => order a.Status ≤ order b.Status) ∧
    order StatusAdded < order StatusModified ∧ order StatusModified < order StatusRenamed ∧
    order StatusRenamed < order StatusDeleted := by
  obtain ⟨l, p, q⟩ := outer_spec changes (changes.length - 1) (le_refl _)
  refine ⟨p, ?_, by decide, by decide, by decide⟩
  rw [List.pairwise_iff_getElem]
  intro i j hi hj hij
  have hl : (sortChanges changes).length = changes.length := l
  have h : rankAt (sortChanges changes) i ≤ rankAt (sortChanges changes) j :=
    q i j (by omega) hij (by omega)
  rw [rankAt_of_some _ i _ (List.getElem?_eq_getElem hi),
    rankAt_of_some _ j _ (List.getElem?_eq_getElem hj)] at h
  exact h

theorem sortInner_of_sorted (cs : List FileChange)
    (h : cs.Pairwise (fun a b => order a.Status ≤ order b.Status)) (i j : Nat)
    (hij : i < j) : sortInner i j cs = cs := by
  cases hi : cs[i]? with
  | none => simp [sortInner, hi]
  | some a =>
    cases hj : cs[j]? with
    | none => simp [sortInner, hi, hj]
    | some b =>
      simp only [sortInner, hi, hj]
      obtain ⟨hi1, hia⟩ := List.getElem?_eq_some.mp hi
      obtain ⟨hj1, hjb⟩ := List.getElem?_eq_some.mp hj
      have := (List.pairwise_iff_getElem.mp h) i j hi1 hj1 hij
      rw [hia, hjb] at this
      rw [if_neg (by omega)]

theorem inner_of_sorted (cs : List FileChange)
    (h : cs.Pairwise (fun a b => order a.Status ≤ order b.Status)) (i : Nat) :
    ∀ js : List Nat, (∀ j ∈ js, i < j) →
      js.foldl (fun cs j => sortInner i j cs) cs = cs
  | [], _ => rfl
  | j :: js, hjs => by
    rw [List.foldl_cons, sortInner_of_sorted cs h i j (hjs j (List.mem_cons_self j js))]
    exact inner_of_sorted cs h i js (fun k hk => hjs k (List.mem_cons_of_mem j hk))

theorem outer_of_sorted (cs : List FileChange)
    (h : cs.Pairwise (fun a b => order a.Status ≤ order b.Status)) (len : Nat) :
    ∀ is : List Nat,
      is.foldl
        (fun cs i =>
          (List.range' (i + 1) (len - (i + 1))).foldl (fun cs j => sortInner i j cs) cs)
        cs = cs
  | [] => rfl
  | i :: is => by
    rw [List.foldl_cons, inner_of_sorted cs h i _ (fun j hj => by
      have := (List.mem_range'_1.mp hj).1
      omega)]
    exact outer_of_sorted cs h len is

/-- C25 (amended): for every list and every status, the entries of that status in the
output of `sortChanges` are a permutation of those in the input; and when the input is
already in rank order, `sortChanges` returns it unchanged, so that entries of the same status
keep their relative order. -/
theorem sortChanges_keeps_sorted_input (changes : List FileChange) :
    (∀ s : ChangeStatus,
      ((sortChanges changes).filter (fun c => decide (c.Status = s))).Perm
        (changes.filter (fun c => decide (c.Status = s)))) ∧
    (changes.Pairwise (fun a b => order a.Status ≤ order b.Status) →
      sortChanges changes = changes ∧ StableAsStated changes) := by
  refine ⟨fun s => (outer_spec changes (changes.length - 1) (le_refl _)).2.1.filter _,
    fun h => ?_⟩
  have e : sortChanges changes = changes := outer_of_sorted changes h _ _
  exact ⟨e, fun s => by rw [e]⟩

/-- C25 (amended) at the example changes in rank order (the added file first). -/
theorem sortChanges_keeps_sorted_input_witness :
    exampleChanges.reverse.Pairwise (fun a b => order a.Status ≤ order b.Status) ∧
    ((∀ s : ChangeStatus,
      ((sortChanges exampleChanges.reverse).filter (fun c => decide (c.Status = s))).Perm
        (exampleChanges.reverse.filter (fun c => decide (c.Status = s)))) ∧
    (exampleChanges.reverse.Pairwise (fun a b => order a.Status ≤ order b.Status) →
      sortChanges exampleChanges.reverse = exampleChanges.reverse ∧
        StableAsStated exampleChanges.reverse)) :=
  ⟨by decide, sortChanges_keeps_sorted_input exampleChanges.reverse⟩

end Sorting

/-- C31 (the two encodings of playback disagree on a reachable state).  `space` pressed while
the history is loading sets the playing flag and `StatePlaying` and schedules a tick; the load
completion sets the state to `StateReady` and leaves the playing flag set.  The tick that
follows advances the cursor and reschedules itself: the engine auto-advances in
`StateReady`. -/
theorem playing_flag_set_in_ready_state :
    ∃ m m1,
      run asciiToLower exampleNew [keyRune ' ', exampleLoad] =
        some (m, [playTick exampleNew.speed, loadDiff exampleNew c0.Hash]) ∧
      Reachable asciiToLower m ∧
      m.playing = true ∧ m.state = AppState.StateReady ∧
      ¬ (m.playing = true ↔ m.state = AppState.StatePlaying) ∧
      Update asciiToLower m Msg.playTickMsg =
        some (m1, [loadDiff m c1.Hash, playTick m.speed]) ∧
      m1.cursor = 1 ∧ m1.playing = true ∧ m1.state = AppState.StateReady := by
  refine ⟨{ exampleModel with playing := true },
    { exampleModel with playing := true, cursor := 1, loadingDiff := true }, rfl,
    ⟨lit "/repo", lit "main", 0, [keyRune ' ', exampleLoad],
      [playTick exampleNew.speed, loadDiff exampleNew c0.Hash], rfl⟩,
    rfl, rfl, ?_, rfl, rfl, rfl, rfl⟩
  intro h
  exact absurd (h.mp rfl) (by decide)

end GitCinema
